import Mathlib

/-!
# Unused JavaScript audit — shallow embedding

Shallow embedding of `lighthouse-core/audits/byte-efficiency/unused-javascript.js`
(the coverage decomposer `findUsedAndUnused`, the per-resource waste computation
`computeWaste`, and the aggregation `audit_`), together with theorems settling the
specification claims about them.

Modelling conventions:
* JavaScript numbers are modelled as exact integers (`Int`) and exact rationals (`ℚ`);
  byte offsets and sizes in the data model are integral.  The one expression whose
  JS value can be non-finite, `(unused/(unused+used)) || 0`, is modelled faithfully
  over `JSNum` (finite rationals, signed infinities, NaN) as `wastedRatioJS`; the
  `WasteResult` record carries its rational projection `wastedRatio`, which is
  proved to agree with the JS value whenever that value is finite.
* The range objects pushed by `computeWaste` carry the derived fields `used`/`unused`
  (from `Object.assign({isUsed, span, used, unused}, range)`); the `span` and `count`
  fields of those objects are never read afterwards and are not carried.
* `Array.prototype.sort` with the comparator
  `rangeA.startOffset - rangeB.startOffset || rangeB.endOffset - rangeA.endOffset`
  is modelled as a stable sort with the corresponding boolean order (implemented as
  insertion sort; all stable sorts for one comparator agree).
* `Map` (insertion ordered, set-replaces-value-in-place) is modelled as an
  association list with `mapGet?` / `mapSet`.
-/

/-- The accumulator type `{used, unused}` threaded through the decomposer. -/
structure UsedUnused where
  used : Int
  unused : Int
deriving Repr, DecidableEq

/-- A flattened coverage range as pushed by `computeWaste`:
`Object.assign({isUsed, span, used, unused}, range)`.
The `span` and `count` fields are never read by `findUsedAndUnused` and are omitted. -/
structure CovRange where
  isUsed : Bool
  startOffset : Int
  endOffset : Int
  used : Int
  unused : Int
deriving Repr, DecidableEq

/-- A raw instrumentation range `{startOffset, endOffset, count}` (external interface). -/
structure RawRange where
  startOffset : Int
  endOffset : Int
  count : Nat
deriving Repr, DecidableEq

/-- One function's coverage: `{ranges: [...]}`. -/
structure ScriptFunction where
  ranges : List RawRange
deriving Repr, DecidableEq

/-- A script sample `{url, functions}`. -/
structure Script where
  url : String
  functions : List ScriptFunction
deriving Repr, DecidableEq

/-- A network record `{url, transferSize}`. -/
structure ResourceRecord where
  url : String
  transferSize : Int
deriving Repr, DecidableEq

/-- The per-resource output of `computeWaste`. -/
structure WasteResult where
  url : String
  totalBytes : Int
  wastedBytes : Int
  wastedPercent : ℚ
  numUnused : Nat
deriving Repr, DecidableEq

namespace UnusedJavaScript

/-- `UnusedJavaScript._add`: componentwise addition of `{used, unused}` pairs. -/
def _add (objA objB : UsedUnused) : UsedUnused :=
  { used := objA.used + objB.used, unused := objA.unused + objB.unused }

/-- The `{used, unused}` pair carried by a range object (the fields of `ranges[0]`
that the single-element base case of `findUsedAndUnused` returns and that `_add`
reads). -/
def rangePair (r : CovRange) : UsedUnused := { used := r.used, unused := r.unused }

/-- The body of `spanningRanges.reduce((max, next) => max.endOffset >= next.endOffset
? max : next)`: a left fold starting from the first element. -/
def latestEndReduce : CovRange → List CovRange → CovRange
  | mx, [] => mx
  | mx, next :: t => latestEndReduce (if mx.endOffset ≥ next.endOffset then mx else next) t

/-- `ranges.slice(1, endIndex)`: the maximal prefix of the tail whose elements start
before `firstRange.endOffset` (the scan of the `while` loop). -/
def spanningOf (firstRange : CovRange) (tail : List CovRange) : List CovRange :=
  tail.takeWhile (fun r => r.startOffset < firstRange.endOffset)

/-- `ranges.slice(endIndex)`: the remainder after the spanning prefix. -/
def restOf (firstRange : CovRange) (tail : List CovRange) : List CovRange :=
  tail.dropWhile (fun r => r.startOffset < firstRange.endOffset)

/-- `(restOfRanges[0] && restOfRanges[0].startOffset) || firstRange.endOffset`:
JavaScript falls back to `firstRange.endOffset` when `restOfRanges` is empty, and
also when `restOfRanges[0].startOffset` is `0` (zero is falsy). -/
def nextStartOf (restOfRanges : List CovRange) (firstRange : CovRange) : Int :=
  match restOfRanges with
  | [] => firstRange.endOffset
  | r :: _ => if r.startOffset = 0 then firstRange.endOffset else r.startOffset

/-- `latestEnd`: the reduce over `spanningRanges`.  The JS reduce would throw on an
empty list; in `findUsedAndUnused` the list always contains `secondRange`, so the
default used for `[]` is unreachable. -/
def latestEndOf (spanningRanges : List CovRange) (dflt : CovRange) : Int :=
  match spanningRanges with
  | [] => dflt.endOffset
  | s :: ss => (latestEndReduce s ss).endOffset

/-- `UnusedJavaScript.findUsedAndUnused`, the coverage decomposer. -/
def findUsedAndUnused : List CovRange → UsedUnused
  | [] => { used := 0, unused := 0 }
  | [r] => rangePair r
  | firstRange :: secondRange :: t2 =>
    if secondRange.startOffset ≥ firstRange.endOffset then
      -- Ranges aren't nested, we can simply continue on to the rest.
      _add
        (_add (rangePair firstRange)
          { used := secondRange.startOffset - firstRange.endOffset, unused := 0 })
        (findUsedAndUnused (secondRange :: t2))
    else if firstRange.isUsed then
      -- Nested ranges may potentially be unused which we need to account for.
      _add
        (_add
          { used := secondRange.startOffset - firstRange.startOffset, unused := 0 }
          { used := nextStartOf (restOf firstRange (secondRange :: t2)) firstRange -
              latestEndOf (spanningOf firstRange (secondRange :: t2)) firstRange,
            unused := 0 })
        (_add (findUsedAndUnused (spanningOf firstRange (secondRange :: t2)))
          (findUsedAndUnused (restOf firstRange (secondRange :: t2))))
    else
      -- Nested ranges won't be used if the entire parent wasn't used, just skip the children.
      _add (rangePair firstRange) (findUsedAndUnused (restOf firstRange (secondRange :: t2)))
termination_by l => l.length
decreasing_by
  · simp
  · simp only [spanningOf, List.length_cons]
    have h := (List.takeWhile_sublist
      (l := secondRange :: t2) (fun r => decide (r.startOffset < firstRange.endOffset))).length_le
    simp only [List.length_cons] at h
    omega
  · simp only [restOf, List.length_cons]
    have h := (List.dropWhile_sublist
      (l := secondRange :: t2) (fun r => decide (r.startOffset < firstRange.endOffset))).length_le
    simp only [List.length_cons] at h
    omega
  · simp only [restOf, List.length_cons]
    have h := (List.dropWhile_sublist
      (l := secondRange :: t2) (fun r => decide (r.startOffset < firstRange.endOffset))).length_le
    simp only [List.length_cons] at h
    omega

/-- Modelled from the spec: `URL.getDisplayName` (from `lib/url-shim`, not part of the
shown source) is used only to key the per-resource results; the spec describes the
aggregation as deduplicating "by URL", so the display name is modelled as the URL
itself. -/
def getDisplayName (url : String) : String := url

/-- The flattened range object pushed for one raw range:
`isUsed = range.count > 0`, `used = isUsed ? span : 0`, `unused = isUsed ? 0 : span`. -/
def toCovRange (range : RawRange) : CovRange :=
  { isUsed := 0 < range.count
    startOffset := range.startOffset
    endOffset := range.endOffset
    used := if 0 < range.count then range.endOffset - range.startOffset else 0
    unused := if 0 < range.count then 0 else range.endOffset - range.startOffset }

/-- `functionIsUsed`: the running `functionIsUsed = functionIsUsed || isUsed` over the
function's ranges, i.e. some range has `count > 0`. -/
def functionIsUsed (f : ScriptFunction) : Bool :=
  f.ranges.any (fun range => 0 < range.count)

/-- `numUnusedFunctions`: the number of functions none of whose ranges was used. -/
def numUnusedFunctions (script : Script) : Nat :=
  (script.functions.filter (fun f => !functionIsUsed f)).length

/-- The flat list of range objects accumulated by the two nested `forEach` loops. -/
def flattenRanges (script : Script) : List CovRange :=
  script.functions.flatMap (fun f => f.ranges.map toCovRange)

/-- The sort comparator
`rangeA.startOffset - rangeB.startOffset || rangeB.endOffset - rangeA.endOffset`
as a boolean order: `a` sorts no later than `b` iff the comparator is `≤ 0`. -/
def rangeLE (rangeA rangeB : CovRange) : Bool :=
  rangeA.startOffset < rangeB.startOffset ||
    (rangeA.startOffset == rangeB.startOffset && rangeB.endOffset ≤ rangeA.endOffset)

/-- `ranges.sort(...)`: the flattened ranges, sorted ascending by `startOffset` with
ties broken by `endOffset` descending.  Modelled as a stable sort; implemented as
insertion sort, which agrees with every stable sort for the same comparator. -/
def sortedRanges (script : Script) : List CovRange :=
  List.insertionSort (fun a b => rangeLE a b = true) (flattenRanges script)

/-- `const results = this.findUsedAndUnused(ranges)`. -/
def decomposed (script : Script) : UsedUnused :=
  findUsedAndUnused (sortedRanges script)

/-- A JavaScript number value as produced by the waste-ratio pipeline: a finite
value (modelled exactly as a rational), a signed infinity, or NaN. -/
inductive JSNum where
  | num (q : ℚ)
  | posInf
  | negInf
  | nan
deriving Repr, DecidableEq

/-- IEEE division of two finite JavaScript numbers.  A zero denominator yields NaN
when the numerator is zero and a signed infinity otherwise.  (The operands of the
source's division are exact integer byte totals, so negative zero cannot arise.) -/
def jsDiv (a b : ℚ) : JSNum :=
  if b = 0 then
    if a = 0 then JSNum.nan
    else if 0 < a then JSNum.posInf
    else JSNum.negInf
  else JSNum.num (a / b)

/-- JavaScript `x || 0` on a number: NaN and zero are falsy and become `0`; every
other value, the infinities included, passes through. -/
def jsOrZero : JSNum → JSNum
  | JSNum.nan => JSNum.num 0
  | JSNum.num q => if q = 0 then JSNum.num 0 else JSNum.num q
  | x => x

/-- `const wastedRatio = (results.unused / (results.unused + results.used)) || 0`,
faithfully: the JavaScript value of the expression.  With a zero denominator it is
`NaN` (numerator zero), which `|| 0` converts to `0`, or a signed infinity
(numerator nonzero), which survives `|| 0`. -/
def wastedRatioJS (results : UsedUnused) : JSNum :=
  jsOrZero (jsDiv (results.unused : ℚ) ((results.unused : ℚ) + (results.used : ℚ)))

/-- The rational projection of `wastedRatioJS`, used for the numeric fields of the
`WasteResult` record: a signed infinity is not representable in `ℚ` and is mapped
to `0`.  The faithful value is `wastedRatioJS`; the two agree whenever the JS value
is finite (`wastedRatioJS_eq_num_of_nonneg`), in particular on every properly
nested input, where both decomposed components are nonnegative
(`findUsedAndUnused_nonneg`) and a zero denominator forces a zero numerator. -/
def wastedRatio (results : UsedUnused) : ℚ :=
  match wastedRatioJS results with
  | JSNum.num q => q
  | _ => 0

/-- `Math.round`: round half toward positive infinity. -/
def jsRound (q : ℚ) : Int := ⌊q + 1/2⌋

/-- Multiplication of a finite JavaScript number by a pipeline value: a finite
product when both are finite, `0 * ±Infinity = NaN`, a nonzero finite factor keeps
or flips the signed infinity, and NaN propagates. -/
def jsMulNum (t : ℚ) : JSNum → JSNum
  | JSNum.num q => JSNum.num (t * q)
  | JSNum.posInf =>
    if t = 0 then JSNum.nan else if 0 < t then JSNum.posInf else JSNum.negInf
  | JSNum.negInf =>
    if t = 0 then JSNum.nan else if 0 < t then JSNum.negInf else JSNum.posInf
  | JSNum.nan => JSNum.nan

/-- `Math.round` on a JavaScript number: finite values round half toward positive
infinity; NaN and the infinities are returned unchanged. -/
def jsRoundJS : JSNum → JSNum
  | JSNum.num q => JSNum.num ((jsRound q : Int) : ℚ)
  | x => x

/-- The JavaScript value of `computeWaste`'s `wastedBytes`,
`Math.round(totalBytes * wastedRatio)`, over the faithful ratio. -/
def wastedBytesJS (script : Script) (networkRecord : ResourceRecord) : JSNum :=
  jsRoundJS (jsMulNum (networkRecord.transferSize : ℚ) (wastedRatioJS (decomposed script)))

/-- The JavaScript value of `computeWaste`'s `wastedPercent`, `100 * wastedRatio`,
over the faithful ratio. -/
def wastedPercentJS (script : Script) : JSNum :=
  jsMulNum 100 (wastedRatioJS (decomposed script))

/-- `UnusedJavaScript.computeWaste`. -/
def computeWaste (script : Script) (networkRecord : ResourceRecord) : WasteResult :=
  { url := getDisplayName script.url
    totalBytes := networkRecord.transferSize
    wastedBytes := jsRound ((networkRecord.transferSize : ℚ) * wastedRatio (decomposed script))
    wastedPercent := 100 * wastedRatio (decomposed script)
    numUnused := numUnusedFunctions script }

/-- `const IGNORE_THRESHOLD_IN_BYTES = 2048`. -/
def IGNORE_THRESHOLD_IN_BYTES : Int := 2048

/-- The first half of the reduce step: `networkRecords.find(record => record.url ===
script.url)`, then `computeWaste` on the joined pair; `none` when no record matches
(the `if (!networkRecord) return results` early exit). -/
def joinScript (networkRecords : List ResourceRecord) (script : Script) :
    Option WasteResult :=
  (networkRecords.find? (fun record => record.url == script.url)).map
    (fun networkRecord => computeWaste script networkRecord)

/-- `results.get(url)` on the insertion-ordered map. -/
def mapGet? (m : List (String × WasteResult)) (k : String) : Option WasteResult :=
  (m.find? (fun p => p.1 == k)).map Prod.snd

/-- `results.set(url, result)`: replace in place when the key is present, else append. -/
def mapSet (m : List (String × WasteResult)) (k : String) (v : WasteResult) :
    List (String × WasteResult) :=
  if m.any (fun p => p.1 == k) then
    m.map (fun p => if p.1 == k then (k, v) else p)
  else
    m ++ [(k, v)]

/-- One step of the `JsUsage.reduce(...)` accumulating the per-URL map:
keep the existing entry unless the new result has strictly smaller `wastedBytes`
(`if (!existing || existing.wastedBytes > result.wastedBytes)`). -/
def auditStep (networkRecords : List ResourceRecord)
    (results : List (String × WasteResult)) (script : Script) :
    List (String × WasteResult) :=
  match joinScript networkRecords script with
  | none => results
  | some result =>
    match mapGet? results result.url with
    | none => mapSet results result.url result
    | some existing =>
      if existing.wastedBytes > result.wastedBytes then mapSet results result.url result
      else results

/-- The full `JsUsage.reduce(..., new Map())`. -/
def resultsMap (jsUsage : List Script) (networkRecords : List ResourceRecord) :
    List (String × WasteResult) :=
  jsUsage.foldl (auditStep networkRecords) []

/-- `UnusedJavaScript.audit_` (the `results` list of its return value; the static
`tableHeadings` metadata is not modelled):
`Array.from(resultsMap.values()).filter(item => item.wastedBytes > IGNORE_THRESHOLD_IN_BYTES)`. -/
def audit_ (jsUsage : List Script) (networkRecords : List ResourceRecord) :
    List WasteResult :=
  ((resultsMap jsUsage networkRecords).map Prod.snd).filter
    (fun item => item.wastedBytes > IGNORE_THRESHOLD_IN_BYTES)

end UnusedJavaScript

open UnusedJavaScript

/-- Well-formedness of one flattened range: nonnegative offsets with
`endOffset > startOffset` (the data model's `uint` offsets and nonempty spans), and
the `used`/`unused` fields derived from `isUsed` exactly as `computeWaste` derives
them. -/
def RangeWF (r : CovRange) : Prop :=
  0 ≤ r.startOffset ∧ r.startOffset < r.endOffset ∧
    r.used = (if r.isUsed then r.endOffset - r.startOffset else 0) ∧
    r.unused = (if r.isUsed then 0 else r.endOffset - r.startOffset)

instance : DecidablePred RangeWF := fun r => by unfold RangeWF; infer_instance

/-- Every range of the list is well formed. -/
def AllWF (rs : List CovRange) : Prop := ∀ r ∈ rs, RangeWF r

instance (rs : List CovRange) : Decidable (AllWF rs) :=
  List.decidableBAll RangeWF rs

/-- The decomposer's precondition: sorted ascending by `startOffset`, ties broken by
`endOffset` descending (each element is `rangeLE` all later ones). -/
def SortedRanges (rs : List CovRange) : Prop :=
  rs.Pairwise (fun a b => rangeLE a b = true)

instance (rs : List CovRange) : Decidable (SortedRanges rs) := by
  unfold SortedRanges; infer_instance

/-- The data model's nesting discipline for one pair: the two spans are disjoint or
one contains the other (no partial overlap). -/
def nestRel (a b : CovRange) : Prop :=
  a.endOffset ≤ b.startOffset ∨ b.endOffset ≤ a.startOffset ∨
    (a.startOffset ≤ b.startOffset ∧ b.endOffset ≤ a.endOffset) ∨
    (b.startOffset ≤ a.startOffset ∧ a.endOffset ≤ b.endOffset)

instance : ∀ a b, Decidable (nestRel a b) := fun a b => by unfold nestRel; infer_instance

/-- The data model's nesting discipline: any two ranges of the list are disjoint or
nested. -/
def ProperlyNested (rs : List CovRange) : Prop := rs.Pairwise nestRel

instance (rs : List CovRange) : Decidable (ProperlyNested rs) := by
  unfold ProperlyNested; infer_instance

/-- `a` unused implies no later range starts strictly inside `a`'s span (unused
ranges are leaves of the nesting forest with respect to later list elements). -/
def unusedLeafRel (a b : CovRange) : Prop :=
  a.isUsed = false → ¬(a.startOffset ≤ b.startOffset ∧ b.startOffset < a.endOffset)

instance : ∀ a b, Decidable (unusedLeafRel a b) := fun a b => by
  unfold unusedLeafRel; infer_instance

/-- No unused range of the list has nested children. -/
def UnusedLeaves (rs : List CovRange) : Prop := rs.Pairwise unusedLeafRel

instance (rs : List CovRange) : Decidable (UnusedLeaves rs) := by
  unfold UnusedLeaves; infer_instance

/-- Follows the spec's words, not the source (refinement target for the claim about
`totalSpanCovered`): proper containment of `b`'s span in `a`'s span. -/
def properlyContains (a b : CovRange) : Bool :=
  (a.startOffset ≤ b.startOffset && b.endOffset ≤ a.endOffset) &&
    (a.startOffset < b.startOffset || b.endOffset < a.endOffset)

/-- Follows the spec's words, not the source: a range is top-level (non-nested) when
no range of the list properly contains it. -/
def isTopLevel (rs : List CovRange) (r : CovRange) : Bool :=
  !(rs.any (fun p => properlyContains p r))

/-- Follows the spec's words, not the source: total length of the union of a list of
spans sorted by `startOffset`, sweeping with the currently covered upper bound. -/
def unionLength : List CovRange → Int → Int
  | [], _ => 0
  | r :: t, hi =>
    (max r.endOffset (max r.startOffset hi) - max r.startOffset hi) +
      unionLength t (max r.endOffset (max r.startOffset hi))

/-- Follows the spec's words, not the source: `totalSpanCovered(ranges)`, "the union
length of the top-level (non-nested) spans". -/
def specTotalSpanCovered (rs : List CovRange) : Int :=
  match rs.filter (fun r => isTopLevel rs r) with
  | [] => 0
  | r :: t => unionLength (r :: t) r.startOffset

/-- The total extent of a nonempty sorted range list: the maximum `endOffset` (folded
from `r` across `t`) minus the first `startOffset`. -/
def maxEnd (r : CovRange) (t : List CovRange) : Int :=
  t.foldl (fun m x => max m x.endOffset) r.endOffset

/-- Extent covered by a sorted range list: from the first range's start to the
maximum end, `0` for the empty list. -/
def coveredExtent : List CovRange → Int
  | [] => 0
  | r :: t => maxEnd r t - r.startOffset

namespace UnusedJavaScript

@[simp] theorem _add_used (a b : UsedUnused) : (_add a b).used = a.used + b.used := rfl

@[simp] theorem _add_unused (a b : UsedUnused) : (_add a b).unused = a.unused + b.unused := rfl

theorem findUsedAndUnused_nil : findUsedAndUnused [] = { used := 0, unused := 0 } := by
  simp [findUsedAndUnused]

theorem findUsedAndUnused_single (r : CovRange) : findUsedAndUnused [r] = rangePair r := by
  simp [findUsedAndUnused]

theorem findUsedAndUnused_disjoint (f s : CovRange) (t : List CovRange)
    (h : s.startOffset ≥ f.endOffset) :
    findUsedAndUnused (f :: s :: t) =
      _add (_add (rangePair f) { used := s.startOffset - f.endOffset, unused := 0 })
        (findUsedAndUnused (s :: t)) := by
  rw [findUsedAndUnused]
  rw [if_pos h]

theorem findUsedAndUnused_nested_used (f s : CovRange) (t : List CovRange)
    (h : ¬ s.startOffset ≥ f.endOffset) (hu : f.isUsed = true) :
    findUsedAndUnused (f :: s :: t) =
      _add
        (_add { used := s.startOffset - f.startOffset, unused := 0 }
          { used := nextStartOf (restOf f (s :: t)) f -
              latestEndOf (spanningOf f (s :: t)) f, unused := 0 })
        (_add (findUsedAndUnused (spanningOf f (s :: t)))
          (findUsedAndUnused (restOf f (s :: t)))) := by
  rw [findUsedAndUnused]
  rw [if_neg h, if_pos hu]

theorem findUsedAndUnused_nested_unused (f s : CovRange) (t : List CovRange)
    (h : ¬ s.startOffset ≥ f.endOffset) (hu : f.isUsed = false) :
    findUsedAndUnused (f :: s :: t) =
      _add (rangePair f) (findUsedAndUnused (restOf f (s :: t))) := by
  rw [findUsedAndUnused]
  rw [if_neg h, if_neg (by simp [hu])]

theorem spanningOf_cons_of_lt {f s : CovRange} {t : List CovRange}
    (h : s.startOffset < f.endOffset) :
    spanningOf f (s :: t) = s :: spanningOf f t := by
  simp [spanningOf, List.takeWhile_cons, h]

theorem restOf_cons_of_lt {f s : CovRange} {t : List CovRange}
    (h : s.startOffset < f.endOffset) :
    restOf f (s :: t) = restOf f t := by
  simp [restOf, List.dropWhile_cons, h]

theorem mem_spanningOf {f x : CovRange} {l : List CovRange} (h : x ∈ spanningOf f l) :
    x ∈ l ∧ x.startOffset < f.endOffset := by
  refine ⟨(List.takeWhile_sublist _).subset h, ?_⟩
  have := List.mem_takeWhile_imp h
  simpa using this

theorem mem_restOf {f x : CovRange} {l : List CovRange} (h : x ∈ restOf f l) : x ∈ l :=
  (List.dropWhile_sublist _).subset h

theorem dropWhile_head_false {α : Type} {p : α → Bool} :
    ∀ (l : List α) {r : α} {t : List α}, List.dropWhile p l = r :: t → p r = false := by
  intro l
  induction l with
  | nil => intro r t h; simp at h
  | cons x xs ih =>
    intro r t h
    rw [List.dropWhile_cons] at h
    by_cases hx : p x = true
    · rw [if_pos hx] at h; exact ih h
    · rw [if_neg hx] at h
      cases h
      simpa using hx

theorem restOf_head_start {f r : CovRange} {l t : List CovRange}
    (h : restOf f l = r :: t) : f.endOffset ≤ r.startOffset := by
  have hp := dropWhile_head_false l h
  simp at hp
  exact hp

/-- `takeWhile ++ dropWhile` recovers the tail. -/
theorem spanningOf_append_restOf (f : CovRange) (l : List CovRange) :
    spanningOf f l ++ restOf f l = l := by
  simp only [spanningOf, restOf]
  exact List.takeWhile_append_dropWhile _ _

theorem latestEndReduce_mem : ∀ (l : List CovRange) (mx : CovRange),
    latestEndReduce mx l ∈ mx :: l := by
  intro l
  induction l with
  | nil => intro mx; simp [latestEndReduce]
  | cons x xs ih =>
    intro mx
    rw [latestEndReduce]
    have hm := ih (if mx.endOffset ≥ x.endOffset then mx else x)
    rw [List.mem_cons] at hm
    rcases hm with hm | hm
    · by_cases hc : mx.endOffset ≥ x.endOffset
      · rw [if_pos hc] at hm ⊢; rw [hm]; simp
      · rw [if_neg hc] at hm ⊢; rw [hm]; simp
    · simp only [List.mem_cons]
      tauto

/-- The fold computing the maximum `endOffset` from a seed. -/
def foldMax (a : Int) (t : List CovRange) : Int :=
  t.foldl (fun m x => max m x.endOffset) a

theorem maxEnd_eq_foldMax (r : CovRange) (t : List CovRange) :
    maxEnd r t = foldMax r.endOffset t := rfl

theorem foldMax_cons (a : Int) (x : CovRange) (t : List CovRange) :
    foldMax a (x :: t) = foldMax (max a x.endOffset) t := rfl

theorem foldMax_max (t : List CovRange) : ∀ (a b : Int),
    foldMax (max a b) t = max a (foldMax b t) := by
  induction t with
  | nil => intro a b; rfl
  | cons x xs ih =>
    intro a b
    rw [foldMax_cons, max_assoc, ih, foldMax_cons]

theorem le_foldMax (t : List CovRange) : ∀ a : Int, a ≤ foldMax a t := by
  induction t with
  | nil => intro a; exact le_refl a
  | cons x xs ih =>
    intro a
    rw [foldMax_cons]
    exact le_trans (le_max_left a x.endOffset) (ih _)

theorem foldMax_le_iff {B : Int} : ∀ {t : List CovRange} {a : Int},
    foldMax a t ≤ B ↔ a ≤ B ∧ ∀ x ∈ t, x.endOffset ≤ B := by
  intro t
  induction t with
  | nil => intro a; simp [foldMax]
  | cons x xs ih =>
    intro a
    rw [foldMax_cons, ih]
    simp [max_le_iff]
    tauto

theorem foldMax_append (a : Int) (l₁ l₂ : List CovRange) :
    foldMax a (l₁ ++ l₂) = foldMax (foldMax a l₁) l₂ :=
  List.foldl_append _ _ _ _

theorem latestEndReduce_end (l : List CovRange) : ∀ mx : CovRange,
    (latestEndReduce mx l).endOffset = foldMax mx.endOffset l := by
  induction l with
  | nil => intro mx; rfl
  | cons x xs ih =>
    intro mx
    rw [latestEndReduce, ih, foldMax_cons]
    congr 1
    by_cases hc : mx.endOffset ≥ x.endOffset
    · rw [if_pos hc]; exact (max_eq_left hc).symm
    · rw [if_neg hc]; exact (max_eq_right (le_of_not_le hc)).symm

theorem latestEndOf_cons (s : CovRange) (ss : List CovRange) (dflt : CovRange) :
    latestEndOf (s :: ss) dflt = maxEnd s ss := by
  rw [latestEndOf, maxEnd_eq_foldMax]
  exact latestEndReduce_end ss s

@[simp] theorem rangePair_used (r : CovRange) : (rangePair r).used = r.used := rfl

@[simp] theorem rangePair_unused (r : CovRange) : (rangePair r).unused = r.unused := rfl

theorem rangeLE_iff (a b : CovRange) :
    rangeLE a b = true ↔
      a.startOffset < b.startOffset ∨
        (a.startOffset = b.startOffset ∧ b.endOffset ≤ a.endOffset) := by
  simp [rangeLE]

theorem rangeLE_start_le {a b : CovRange} (h : rangeLE a b = true) :
    a.startOffset ≤ b.startOffset := by
  rw [rangeLE_iff] at h
  rcases h with h | ⟨h, _⟩ <;> omega

end UnusedJavaScript

theorem RangeWF.used_nonneg {r : CovRange} (h : RangeWF r) : 0 ≤ r.used := by
  obtain ⟨h0, hsp, hu, _⟩ := h
  rw [hu]
  split
  · omega
  · omega

theorem RangeWF.unused_nonneg {r : CovRange} (h : RangeWF r) : 0 ≤ r.unused := by
  obtain ⟨h0, hsp, _, hun⟩ := h
  rw [hun]
  split
  · omega
  · omega

theorem RangeWF.pair_sum {r : CovRange} (h : RangeWF r) :
    r.used + r.unused = r.endOffset - r.startOffset := by
  obtain ⟨h0, hsp, hu, hun⟩ := h
  rw [hu, hun]
  by_cases hiu : r.isUsed <;> simp [hiu]

theorem allWF_sublist {l₁ l₂ : List CovRange} (hw : AllWF l₂) (h : l₁.Sublist l₂) :
    AllWF l₁ := fun r hr => hw r (h.subset hr)

theorem sortedRanges_sublist {l₁ l₂ : List CovRange} (hs : SortedRanges l₂)
    (h : l₁.Sublist l₂) : SortedRanges l₁ := List.Pairwise.sublist h hs

theorem properlyNested_sublist {l₁ l₂ : List CovRange} (hn : ProperlyNested l₂)
    (h : l₁.Sublist l₂) : ProperlyNested l₁ := List.Pairwise.sublist h hn

theorem unusedLeaves_sublist {l₁ l₂ : List CovRange} (hu : UnusedLeaves l₂)
    (h : l₁.Sublist l₂) : UnusedLeaves l₁ := List.Pairwise.sublist h hu

/-- A later range that starts strictly inside an earlier (in sort order) range's
span ends inside it as well: partial overlap is excluded by the nesting discipline,
and containment of the earlier range by the later one is excluded by the sort
order's tie break. -/
theorem nested_end_le {f x : CovRange} (hle : rangeLE f x = true) (hnest : nestRel f x)
    (hwx : RangeWF x) (hlt : x.startOffset < f.endOffset) :
    x.endOffset ≤ f.endOffset := by
  rw [rangeLE_iff] at hle
  obtain ⟨_, hspan, _, _⟩ := hwx
  unfold nestRel at hnest
  rcases hle with h | ⟨h, h2⟩
  · rcases hnest with hn | hn | ⟨hn1, hn2⟩ | ⟨hn1, hn2⟩ <;> omega
  · omega

/-- Every member of the spanning prefix of the tail ends no later than the head
range does. -/
theorem spanning_end_le {f : CovRange} {tail : List CovRange}
    (hs : ∀ x ∈ tail, rangeLE f x = true) (hn : ∀ x ∈ tail, nestRel f x)
    (hw : ∀ x ∈ tail, RangeWF x) :
    ∀ x ∈ spanningOf f tail, x.endOffset ≤ f.endOffset := by
  intro x hx
  obtain ⟨hmem, hlt⟩ := mem_spanningOf hx
  exact nested_end_le (hs x hmem) (hn x hmem) (hw x hmem) hlt

theorem nextStartOf_ge_end {f : CovRange} {tail : List CovRange} :
    f.endOffset ≤ nextStartOf (restOf f tail) f := by
  cases hr : restOf f tail with
  | nil => simp [nextStartOf]
  | cons r t =>
    have hge := restOf_head_start hr
    simp only [nextStartOf]
    by_cases h0 : r.startOffset = 0
    · rw [if_pos h0]
    · rw [if_neg h0]; exact hge

theorem nextStartOf_cons_of_ne {f r : CovRange} {t : List CovRange}
    (h0 : r.startOffset ≠ 0) : nextStartOf (r :: t) f = r.startOffset := by
  simp [nextStartOf, h0]

/-- Under the decomposer's precondition (sorted input of well-formed ranges obeying
the data model's nesting discipline) both components of the decomposition are
nonnegative: every edge and gap term of the recursion is a difference of offsets in
the right order. -/
theorem findUsedAndUnused_nonneg :
    ∀ rs : List CovRange, SortedRanges rs → AllWF rs → ProperlyNested rs →
      0 ≤ (findUsedAndUnused rs).used ∧ 0 ≤ (findUsedAndUnused rs).unused
  | [], _, _, _ => by simp [findUsedAndUnused_nil]
  | [r], _, hw, _ => by
    rw [findUsedAndUnused_single]
    have hwr := hw r (by simp)
    simpa using ⟨hwr.used_nonneg, hwr.unused_nonneg⟩
  | f :: s :: t, hs, hw, hn => by
    have hs2 : SortedRanges (s :: t) := (List.pairwise_cons.mp hs).2
    have hsf : ∀ x ∈ s :: t, rangeLE f x = true := (List.pairwise_cons.mp hs).1
    have hw2 : AllWF (s :: t) := fun r hr => hw r (List.mem_cons_of_mem f hr)
    have hn2 : ProperlyNested (s :: t) := (List.pairwise_cons.mp hn).2
    have hnf : ∀ x ∈ s :: t, nestRel f x := (List.pairwise_cons.mp hn).1
    have hwf : RangeWF f := hw f (by simp)
    by_cases hd : s.startOffset ≥ f.endOffset
    · rw [findUsedAndUnused_disjoint f s t hd]
      obtain ⟨ih1, ih2⟩ := findUsedAndUnused_nonneg (s :: t) hs2 hw2 hn2
      simp only [_add_used, _add_unused, rangePair_used, rangePair_unused]
      have h1 := hwf.used_nonneg
      have h2 := hwf.unused_nonneg
      omega
    · have hlt : s.startOffset < f.endOffset := lt_of_not_ge hd
      have hsubsp : (spanningOf f (s :: t)).Sublist (s :: t) := List.takeWhile_sublist _
      have hsubre : (restOf f (s :: t)).Sublist (s :: t) := List.dropWhile_sublist _
      obtain ⟨ihs1, ihs2⟩ := findUsedAndUnused_nonneg (spanningOf f (s :: t))
        (sortedRanges_sublist hs2 hsubsp) (allWF_sublist hw2 hsubsp) (properlyNested_sublist hn2 hsubsp)
      obtain ⟨ihr1, ihr2⟩ := findUsedAndUnused_nonneg (restOf f (s :: t))
        (sortedRanges_sublist hs2 hsubre) (allWF_sublist hw2 hsubre) (properlyNested_sublist hn2 hsubre)
      by_cases hiu : f.isUsed
      · rw [findUsedAndUnused_nested_used f s t hd hiu]
        simp only [_add_used, _add_unused]
        have hleft : f.startOffset ≤ s.startOffset := rangeLE_start_le (hsf s (by simp))
        have hspan : spanningOf f (s :: t) = s :: spanningOf f t := spanningOf_cons_of_lt hlt
        have hbound : ∀ x ∈ spanningOf f (s :: t), x.endOffset ≤ f.endOffset :=
          spanning_end_le hsf hnf (fun x hx => hw2 x hx)
        have hle1 : latestEndOf (spanningOf f (s :: t)) f ≤ f.endOffset := by
          rw [hspan, latestEndOf_cons, maxEnd_eq_foldMax]
          refine foldMax_le_iff.mpr ⟨?_, ?_⟩
          · exact hbound s (by rw [hspan]; simp)
          · intro x hx
            exact hbound x (by rw [hspan]; exact List.mem_cons_of_mem s hx)
        have hge1 : f.endOffset ≤ nextStartOf (restOf f (s :: t)) f := nextStartOf_ge_end
        omega
      · rw [findUsedAndUnused_nested_unused f s t hd (by simpa using hiu)]
        simp only [_add_used, _add_unused, rangePair_used, rangePair_unused]
        have h1 := hwf.used_nonneg
        have h2 := hwf.unused_nonneg
        omega
termination_by rs => rs.length
decreasing_by
  · simp
  · simp only [spanningOf, List.length_cons]
    have h := (List.takeWhile_sublist
      (l := s :: t) (fun r => decide (r.startOffset < f.endOffset))).length_le
    simp only [List.length_cons] at h
    omega
  · simp only [restOf, List.length_cons]
    have h := (List.dropWhile_sublist
      (l := s :: t) (fun r => decide (r.startOffset < f.endOffset))).length_le
    simp only [List.length_cons] at h
    omega

theorem foldMax_eq_self {a : Int} {t : List CovRange}
    (h : ∀ x ∈ t, x.endOffset ≤ a) : foldMax a t = a :=
  le_antisymm (foldMax_le_iff.mpr ⟨le_refl a, h⟩) (le_foldMax t a)

theorem maxEnd_cons_of_le {f s : CovRange} {t : List CovRange}
    (h : f.endOffset ≤ s.endOffset) : maxEnd f (s :: t) = maxEnd s t := by
  rw [maxEnd_eq_foldMax, maxEnd_eq_foldMax, foldMax_cons]
  have hmax : max f.endOffset s.endOffset = s.endOffset := max_eq_right h
  rw [hmax]

theorem le_maxEnd_self (r : CovRange) (t : List CovRange) : r.endOffset ≤ maxEnd r t :=
  le_foldMax t r.endOffset

/-- Core identity behind the `totalSpanCovered` claim: under the decomposer's
precondition, the data model's nesting discipline, and the additional hypothesis
that unused ranges have no nested children, the two components of the decomposition
add up to the covered extent — from the first `startOffset` to the maximum
`endOffset`, inter-sibling gaps included (they are counted as used). -/
theorem findUsedAndUnused_sum_extent :
    ∀ rs : List CovRange, SortedRanges rs → AllWF rs → ProperlyNested rs →
      UnusedLeaves rs →
      (findUsedAndUnused rs).used + (findUsedAndUnused rs).unused = coveredExtent rs
  | [], _, _, _, _ => by simp [findUsedAndUnused_nil, coveredExtent]
  | [r], _, hw, _, _ => by
    rw [findUsedAndUnused_single]
    have hwr := hw r (by simp)
    have hsum := hwr.pair_sum
    simp only [rangePair_used, rangePair_unused, coveredExtent]
    rw [maxEnd_eq_foldMax]
    simp only [foldMax, List.foldl_nil]
    omega
  | f :: s :: t, hs, hw, hn, hu => by
    have hs2 : SortedRanges (s :: t) := (List.pairwise_cons.mp hs).2
    have hsf : ∀ x ∈ s :: t, rangeLE f x = true := (List.pairwise_cons.mp hs).1
    have hw2 : AllWF (s :: t) := fun r hr => hw r (List.mem_cons_of_mem f hr)
    have hn2 : ProperlyNested (s :: t) := (List.pairwise_cons.mp hn).2
    have hnf : ∀ x ∈ s :: t, nestRel f x := (List.pairwise_cons.mp hn).1
    have hu2 : UnusedLeaves (s :: t) := (List.pairwise_cons.mp hu).2
    have huf : ∀ x ∈ s :: t, unusedLeafRel f x := (List.pairwise_cons.mp hu).1
    have hwf : RangeWF f := hw f (by simp)
    have hws : RangeWF s := hw s (by simp)
    have hleft : f.startOffset ≤ s.startOffset := rangeLE_start_le (hsf s (by simp))
    by_cases hd : s.startOffset ≥ f.endOffset
    · rw [findUsedAndUnused_disjoint f s t hd]
      have ih := findUsedAndUnused_sum_extent (s :: t) hs2 hw2 hn2 hu2
      simp only [_add_used, _add_unused, rangePair_used, rangePair_unused]
      have hsumf := hwf.pair_sum
      simp only [coveredExtent] at ih ⊢
      have hme : maxEnd f (s :: t) = maxEnd s t := by
        apply maxEnd_cons_of_le
        have := hws.2.1
        omega
      rw [hme]
      omega
    · have hlt : s.startOffset < f.endOffset := lt_of_not_ge hd
      have hsubsp : (spanningOf f (s :: t)).Sublist (s :: t) := List.takeWhile_sublist _
      have hsubre : (restOf f (s :: t)).Sublist (s :: t) := List.dropWhile_sublist _
      by_cases hiu : f.isUsed
      · rw [findUsedAndUnused_nested_used f s t hd hiu]
        have ihsp := findUsedAndUnused_sum_extent (spanningOf f (s :: t))
          (sortedRanges_sublist hs2 hsubsp) (allWF_sublist hw2 hsubsp) (properlyNested_sublist hn2 hsubsp)
          (unusedLeaves_sublist hu2 hsubsp)
        have ihre := findUsedAndUnused_sum_extent (restOf f (s :: t))
          (sortedRanges_sublist hs2 hsubre) (allWF_sublist hw2 hsubre) (properlyNested_sublist hn2 hsubre)
          (unusedLeaves_sublist hu2 hsubre)
        simp only [_add_used, _add_unused]
        have hspan : spanningOf f (s :: t) = s :: spanningOf f t :=
          spanningOf_cons_of_lt hlt
        have hbound : ∀ x ∈ spanningOf f (s :: t), x.endOffset ≤ f.endOffset :=
          spanning_end_le hsf hnf (fun x hx => hw2 x hx)
        have hboundt : ∀ x ∈ spanningOf f t, x.endOffset ≤ f.endOffset := by
          intro x hx
          exact hbound x (by rw [hspan]; exact List.mem_cons_of_mem s hx)
        have hbs : s.endOffset ≤ f.endOffset := hbound s (by rw [hspan]; simp)
        -- the spanning prefix and the rest split the tail
        have hsplit : spanningOf f (s :: t) ++ restOf f (s :: t) = s :: t :=
          spanningOf_append_restOf f (s :: t)
        -- coveredExtent of the spanning prefix
        rw [hspan] at ihsp
        simp only [coveredExtent] at ihsp ⊢
        -- compute the whole extent through the split
        have hext : maxEnd f (s :: t) =
            foldMax f.endOffset (restOf f (s :: t)) := by
          conv_lhs => rw [maxEnd_eq_foldMax, ← hsplit]
          rw [foldMax_append]
          congr 1
          rw [hspan]
          refine foldMax_eq_self ?_
          intro x hx
          exact hbound x (by rw [hspan]; exact hx)
        rw [hspan, latestEndOf_cons]
        cases hre : restOf f (s :: t) with
        | nil =>
          rw [hre] at hext ihre
          simp only [findUsedAndUnused_nil] at ihre ⊢
          simp only [nextStartOf]
          simp only [foldMax, List.foldl_nil] at hext
          rw [hext]
          omega
        | cons r rt =>
          have hrge : f.endOffset ≤ r.startOffset := restOf_head_start hre
          have hr0 : r.startOffset ≠ 0 := by
            have h1 := hwf.1
            have h2 := hwf.2.1
            omega
          have hnext : nextStartOf (r :: rt) f = r.startOffset :=
            nextStartOf_cons_of_ne hr0
          have hwr : RangeWF r := (allWF_sublist hw2 hsubre) r (by rw [hre]; simp)
          have hextr : maxEnd f (s :: t) = maxEnd r rt := by
            rw [hext, hre]
            apply maxEnd_cons_of_le
            have := hwr.2.1
            omega
          rw [hnext, hextr]
          rw [hre] at ihre
          simp only [coveredExtent] at ihre
          omega
      · -- unused head with a nested child: excluded by the UnusedLeaves hypothesis
        have hfu : f.isUsed = false := by simpa using hiu
        have hrel := huf s (by simp)
        exact absurd ⟨hleft, hlt⟩ (hrel hfu)
termination_by rs => rs.length
decreasing_by
  · simp
  · simp only [spanningOf, List.length_cons]
    have h := (List.takeWhile_sublist
      (l := s :: t) (fun r => decide (r.startOffset < f.endOffset))).length_le
    simp only [List.length_cons] at h
    omega
  · simp only [restOf, List.length_cons]
    have h := (List.dropWhile_sublist
      (l := s :: t) (fun r => decide (r.startOffset < f.endOffset))).length_le
    simp only [List.length_cons] at h
    omega

instance : IsTotal CovRange (fun a b => rangeLE a b = true) := ⟨by
  intro a b
  rw [UnusedJavaScript.rangeLE_iff, UnusedJavaScript.rangeLE_iff]
  omega⟩

instance : IsTrans CovRange (fun a b => rangeLE a b = true) := ⟨by
  intro a b c hab hbc
  rw [UnusedJavaScript.rangeLE_iff] at hab hbc ⊢
  omega⟩

theorem sortedRanges_sorted (script : Script) : SortedRanges (sortedRanges script) :=
  List.sorted_insertionSort (fun a b => rangeLE a b = true) (flattenRanges script)

theorem sortedRanges_perm (script : Script) :
    (sortedRanges script).Perm (flattenRanges script) :=
  List.perm_insertionSort _ _

theorem nestRel_symm {a b : CovRange} (h : nestRel a b) : nestRel b a := by
  unfold nestRel at h ⊢
  omega

/-- Well-formedness of a raw instrumentation range: nonnegative start, nonempty span. -/
def RawWF (range : RawRange) : Prop :=
  0 ≤ range.startOffset ∧ range.startOffset < range.endOffset

instance : DecidablePred RawWF := fun range => by unfold RawWF; infer_instance

theorem toCovRange_wf {range : RawRange} (h : RawWF range) : RangeWF (toCovRange range) := by
  obtain ⟨h0, hlt⟩ := h
  refine ⟨h0, hlt, ?_, ?_⟩
  all_goals
    simp only [toCovRange]
    by_cases hc : 0 < range.count
    · simp [hc]
    · simp [hc]

theorem mem_flattenRanges {script : Script} {r : CovRange}
    (h : r ∈ flattenRanges script) :
    ∃ f ∈ script.functions, ∃ range ∈ f.ranges, r = toCovRange range := by
  simp only [flattenRanges, List.mem_flatMap, List.mem_map] at h
  obtain ⟨f, hf, range, hrange, hr⟩ := h
  exact ⟨f, hf, range, hrange, hr.symm⟩

theorem flatten_allWF {script : Script}
    (h : ∀ f ∈ script.functions, ∀ range ∈ f.ranges, RawWF range) :
    AllWF (flattenRanges script) := by
  intro r hr
  obtain ⟨f, hf, range, hrange, heq⟩ := mem_flattenRanges hr
  rw [heq]
  exact toCovRange_wf (h f hf range hrange)

theorem sortedRanges_allWF {script : Script} (h : AllWF (flattenRanges script)) :
    AllWF (sortedRanges script) :=
  fun r hr => h r ((sortedRanges_perm script).subset hr)

theorem sortedRanges_nested {script : Script} (h : ProperlyNested (flattenRanges script)) :
    ProperlyNested (sortedRanges script) :=
  ((sortedRanges_perm script).pairwise_iff (fun hab => nestRel_symm hab)).mpr h

/-- The rational projection written out: it is the old-style guarded division,
`0` on a zero (integer) denominator and the exact quotient otherwise. -/
theorem wastedRatio_eq_ite (results : UsedUnused) :
    wastedRatio results =
      if results.unused + results.used = 0 then 0
      else (results.unused : ℚ) / ((results.unused : ℚ) + (results.used : ℚ)) := by
  have hcast : ((results.unused : ℚ) + (results.used : ℚ) = 0) ↔
      results.unused + results.used = 0 := by
    rw [← Int.cast_add]
    exact Int.cast_eq_zero
  unfold wastedRatio wastedRatioJS jsDiv jsOrZero
  by_cases hz : (results.unused : ℚ) + (results.used : ℚ) = 0
  · rw [if_pos hz, if_pos (hcast.mp hz)]
    by_cases ha : (results.unused : ℚ) = 0
    · simp [ha]
    · by_cases hp : 0 < (results.unused : ℚ)
      · simp [ha, hp]
      · simp [ha, hp]
  · rw [if_neg hz, if_neg (fun h => hz (hcast.mpr h))]
    by_cases hq : (results.unused : ℚ) / ((results.unused : ℚ) + (results.used : ℚ)) = 0
    · simp [hq]
    · simp [hq]

/-- On inputs whose JS ratio is finite — in particular whenever both components are
nonnegative, so that a zero denominator forces a zero numerator — the faithful
`wastedRatioJS` is exactly the rational projection `wastedRatio`. -/
theorem wastedRatioJS_eq_num_of_nonneg {uu : UsedUnused} (h1 : 0 ≤ uu.used)
    (h2 : 0 ≤ uu.unused) : wastedRatioJS uu = JSNum.num (wastedRatio uu) := by
  rw [wastedRatio_eq_ite]
  unfold wastedRatioJS jsDiv jsOrZero
  by_cases hz : ((uu.unused : ℚ) + (uu.used : ℚ)) = 0
  · have hzi : uu.unused + uu.used = 0 := by
      rw [← Int.cast_add ] at hz
      exact_mod_cast hz
    have hn0 : uu.unused = 0 := by omega
    rw [if_pos hz, if_pos hzi]
    simp [hn0]
  · have hzi : ¬ uu.unused + uu.used = 0 := by
      intro h
      apply hz
      rw [← Int.cast_add, h]
      exact Int.cast_zero
    rw [if_neg hz, if_neg hzi]
    by_cases hq : (uu.unused : ℚ) / ((uu.unused : ℚ) + (uu.used : ℚ)) = 0
    · simp [hq]
    · simp [hq]

/-- Whenever the JS ratio is finite, `computeWaste`'s record fields are exactly the
faithful JS values: `wastedBytesJS` is the (integer) `wastedBytes` and
`wastedPercentJS` is `wastedPercent`.  The rational projection therefore diverges
from JavaScript only where the JS value is a signed infinity. -/
theorem computeWaste_fields_faithful (script : Script) (networkRecord : ResourceRecord)
    {q : ℚ} (h : wastedRatioJS (decomposed script) = JSNum.num q) :
    wastedBytesJS script networkRecord =
      JSNum.num (((computeWaste script networkRecord).wastedBytes : ℚ)) ∧
    wastedPercentJS script =
      JSNum.num ((computeWaste script networkRecord).wastedPercent) := by
  have hq : wastedRatio (decomposed script) = q := by
    unfold wastedRatio
    rw [h]
  constructor
  · unfold wastedBytesJS
    rw [h]
    show JSNum.num ((jsRound ((networkRecord.transferSize : ℚ) * q) : Int) : ℚ) = _
    rw [← hq]
    rfl
  · unfold wastedPercentJS
    rw [h]
    show JSNum.num (100 * q) = _
    rw [← hq]
    rfl

theorem wastedRatio_nonneg {uu : UsedUnused} (h1 : 0 ≤ uu.used) (h2 : 0 ≤ uu.unused) :
    0 ≤ wastedRatio uu := by
  rw [wastedRatio_eq_ite]
  split
  · exact le_refl 0
  · apply div_nonneg
    · exact_mod_cast h2
    · have ha : (0 : ℚ) ≤ (uu.unused : ℚ) := by exact_mod_cast h2
      have hb : (0 : ℚ) ≤ (uu.used : ℚ) := by exact_mod_cast h1
      linarith

theorem wastedRatio_le_one {uu : UsedUnused} (h1 : 0 ≤ uu.used) (h2 : 0 ≤ uu.unused) :
    wastedRatio uu ≤ 1 := by
  rw [wastedRatio_eq_ite]
  split
  · norm_num
  · rename_i hne
    have hpos : (0 : ℚ) < (uu.unused : ℚ) + (uu.used : ℚ) := by
      have hsum : uu.unused + uu.used ≠ 0 := hne
      have hlt : 0 < uu.unused + uu.used := by omega
      exact_mod_cast hlt
    rw [div_le_one hpos]
    have : (0 : ℚ) ≤ (uu.used : ℚ) := by exact_mod_cast h1
    linarith

theorem jsRound_le {q : ℚ} {n : Int} (h : q ≤ (n : ℚ)) : jsRound q ≤ n := by
  unfold jsRound
  rw [Int.floor_le_iff]
  linarith

/-- **C1** (counterexample): the claim states that under the decomposer's
precondition alone, `used + unused` equals `totalSpanCovered`, the union length of
the top-level spans.  For two disjoint used ranges `[0,100)` and `[150,160)` —
sorted, well formed — the code counts the gap `[100,150)` as used and returns a
total of `160`, while the union length of the two top-level spans is `110`. -/
theorem decompose_union_length_counterexample :
    SortedRanges [⟨true, 0, 100, 100, 0⟩, ⟨true, 150, 160, 10, 0⟩] ∧
    AllWF [⟨true, 0, 100, 100, 0⟩, ⟨true, 150, 160, 10, 0⟩] ∧
    (findUsedAndUnused [⟨true, 0, 100, 100, 0⟩, ⟨true, 150, 160, 10, 0⟩]).used +
      (findUsedAndUnused [⟨true, 0, 100, 100, 0⟩, ⟨true, 150, 160, 10, 0⟩]).unused = 160 ∧
    specTotalSpanCovered [⟨true, 0, 100, 100, 0⟩, ⟨true, 150, 160, 10, 0⟩] = 110 ∧
    (160 : Int) ≠ 110 := by
  refine ⟨by decide, by decide, ?_, by decide, by decide⟩
  have h : findUsedAndUnused [⟨true, 0, 100, 100, 0⟩, ⟨true, 150, 160, 10, 0⟩] =
      ⟨160, 0⟩ := by
    simp [findUsedAndUnused, rangePair, _add]
  rw [h]
  decide

/-- **C1** (amended): for every range sequence satisfying the decomposer's
precondition (sorted ascending by start, ties by end descending; each range well
formed) that also obeys the data model's nesting discipline (any two ranges disjoint
or nested) and in which no unused range has nested children,
`findUsedAndUnused(ranges).used + findUsedAndUnused(ranges).unused` equals the
covered extent — from the first start offset to the maximum end offset — which
counts inter-sibling gaps as used bytes.  (The union length of the top-level spans
equals this extent exactly when consecutive top-level spans are contiguous; the
counterexample shows the two measures differ across gaps, and unused parents with
children or partially overlapping ranges break the identity as well.) -/
theorem decompose_used_plus_unused_eq_coveredExtent (rs : List CovRange)
    (h1 : SortedRanges rs) (h2 : AllWF rs) (h3 : ProperlyNested rs)
    (h4 : UnusedLeaves rs) :
    (findUsedAndUnused rs).used + (findUsedAndUnused rs).unused = coveredExtent rs :=
  findUsedAndUnused_sum_extent rs h1 h2 h3 h4

/-- Witness for the amended C1 theorem at the spec's nested example
`[0,100) used, [10,50) used, [20,30) unused, [75,90) used`. -/
theorem decompose_used_plus_unused_eq_coveredExtent_witness :
    SortedRanges [⟨true, 0, 100, 100, 0⟩, ⟨true, 10, 50, 40, 0⟩,
        ⟨false, 20, 30, 0, 10⟩, ⟨true, 75, 90, 15, 0⟩] ∧
    AllWF [⟨true, 0, 100, 100, 0⟩, ⟨true, 10, 50, 40, 0⟩,
        ⟨false, 20, 30, 0, 10⟩, ⟨true, 75, 90, 15, 0⟩] ∧
    ProperlyNested [⟨true, 0, 100, 100, 0⟩, ⟨true, 10, 50, 40, 0⟩,
        ⟨false, 20, 30, 0, 10⟩, ⟨true, 75, 90, 15, 0⟩] ∧
    UnusedLeaves [⟨true, 0, 100, 100, 0⟩, ⟨true, 10, 50, 40, 0⟩,
        ⟨false, 20, 30, 0, 10⟩, ⟨true, 75, 90, 15, 0⟩] ∧
    (findUsedAndUnused [⟨true, 0, 100, 100, 0⟩, ⟨true, 10, 50, 40, 0⟩,
        ⟨false, 20, 30, 0, 10⟩, ⟨true, 75, 90, 15, 0⟩]).used +
      (findUsedAndUnused [⟨true, 0, 100, 100, 0⟩, ⟨true, 10, 50, 40, 0⟩,
        ⟨false, 20, 30, 0, 10⟩, ⟨true, 75, 90, 15, 0⟩]).unused =
      coveredExtent [⟨true, 0, 100, 100, 0⟩, ⟨true, 10, 50, 40, 0⟩,
        ⟨false, 20, 30, 0, 10⟩, ⟨true, 75, 90, 15, 0⟩] ∧
    coveredExtent [⟨true, 0, 100, 100, 0⟩, ⟨true, 10, 50, 40, 0⟩,
        ⟨false, 20, 30, 0, 10⟩, ⟨true, 75, 90, 15, 0⟩] = 100 :=
  ⟨by decide, by decide, by decide, by decide,
    decompose_used_plus_unused_eq_coveredExtent _ (by decide) (by decide) (by decide)
      (by decide),
    by decide⟩

/-- **C2** (counterexample): with only the claim's stated precondition — every range
has `endOffset > startOffset`, ranges do not overlap within a function (each
function here has a single range), and `transferSize ≥ 0` — two partially
overlapping ranges from different functions produce `wastedBytes = 150` against
`totalBytes = 100` and `wastedPercent = 150`, violating both invariants. -/
theorem computeWaste_invariant_counterexample :
    (∀ f ∈ (Script.mk "s.js" [⟨[⟨0, 100, 1⟩]⟩, ⟨[⟨50, 200, 0⟩]⟩]).functions,
      ∀ range ∈ f.ranges, RawWF range) ∧
    (computeWaste (Script.mk "s.js" [⟨[⟨0, 100, 1⟩]⟩, ⟨[⟨50, 200, 0⟩]⟩])
      ⟨"s.js", 100⟩).totalBytes = 100 ∧
    (computeWaste (Script.mk "s.js" [⟨[⟨0, 100, 1⟩]⟩, ⟨[⟨50, 200, 0⟩]⟩])
      ⟨"s.js", 100⟩).wastedBytes = 150 ∧
    (computeWaste (Script.mk "s.js" [⟨[⟨0, 100, 1⟩]⟩, ⟨[⟨50, 200, 0⟩]⟩])
      ⟨"s.js", 100⟩).wastedPercent = 150 := by
  refine ⟨by decide, rfl, ?_, ?_⟩
  · simp [computeWaste, decomposed, sortedRanges, flattenRanges, toCovRange, rangeLE,
      wastedRatio_eq_ite, jsRound, findUsedAndUnused, rangePair, _add, spanningOf, restOf,
      nextStartOf, latestEndOf, latestEndReduce, List.insertionSort, List.orderedInsert]
    norm_num
  · simp [computeWaste, decomposed, sortedRanges, flattenRanges, toCovRange, rangeLE,
      wastedRatio_eq_ite, jsRound, findUsedAndUnused, rangePair, _add, spanningOf, restOf,
      nextStartOf, latestEndOf, latestEndReduce, List.insertionSort, List.orderedInsert]
    norm_num

/-- **C2** (amended): for every script whose raw ranges are well formed (nonnegative
start, `endOffset > startOffset`) and whose flattened ranges obey the data model's
nesting discipline (any two disjoint or nested — in particular, non-overlapping
within a function and properly nested across functions), and every network record
with `transferSize ≥ 0`, the result of `computeWaste` satisfies
`wastedBytes ≤ totalBytes` and `0 ≤ wastedPercent ≤ 100`. -/
theorem computeWaste_invariant (script : Script) (networkRecord : ResourceRecord)
    (hts : 0 ≤ networkRecord.transferSize)
    (hwf : ∀ f ∈ script.functions, ∀ range ∈ f.ranges, RawWF range)
    (hnest : ProperlyNested (flattenRanges script)) :
    (computeWaste script networkRecord).wastedBytes ≤
      (computeWaste script networkRecord).totalBytes ∧
    0 ≤ (computeWaste script networkRecord).wastedPercent ∧
    (computeWaste script networkRecord).wastedPercent ≤ 100 := by
  have hall : AllWF (sortedRanges script) := sortedRanges_allWF (flatten_allWF hwf)
  have hsor := sortedRanges_sorted script
  have hnes := sortedRanges_nested hnest
  obtain ⟨hu1, hu2⟩ := findUsedAndUnused_nonneg (sortedRanges script) hsor hall hnes
  have hr0 : 0 ≤ wastedRatio (decomposed script) := wastedRatio_nonneg hu1 hu2
  have hr1 : wastedRatio (decomposed script) ≤ 1 := wastedRatio_le_one hu1 hu2
  refine ⟨?_, ?_, ?_⟩
  · show jsRound ((networkRecord.transferSize : ℚ) * wastedRatio (decomposed script)) ≤
      networkRecord.transferSize
    apply jsRound_le
    have hT : (0 : ℚ) ≤ (networkRecord.transferSize : ℚ) := by exact_mod_cast hts
    calc (networkRecord.transferSize : ℚ) * wastedRatio (decomposed script)
        ≤ (networkRecord.transferSize : ℚ) * 1 := mul_le_mul_of_nonneg_left hr1 hT
      _ = (networkRecord.transferSize : ℚ) := mul_one _
  · show 0 ≤ 100 * wastedRatio (decomposed script)
    linarith
  · show 100 * wastedRatio (decomposed script) ≤ 100
    linarith

/-- Witness for the amended C2 theorem at the repository test script (35% used,
65% unused) joined with `transferSize = 1000`. -/
theorem computeWaste_invariant_witness :
    0 ≤ (ResourceRecord.mk "myscript.js" 1000).transferSize ∧
    (∀ f ∈ (Script.mk "myscript.js"
        [⟨[⟨0, 100, 1⟩]⟩, ⟨[⟨0, 10, 1⟩]⟩, ⟨[⟨0, 40, 1⟩]⟩, ⟨[⟨20, 40, 0⟩]⟩,
         ⟨[⟨60, 100, 0⟩]⟩, ⟨[⟨70, 80, 0⟩]⟩, ⟨[⟨100, 150, 0⟩]⟩, ⟨[⟨180, 200, 0⟩]⟩,
         ⟨[⟨100, 200, 1⟩]⟩]).functions, ∀ range ∈ f.ranges, RawWF range) ∧
    ProperlyNested (flattenRanges (Script.mk "myscript.js"
        [⟨[⟨0, 100, 1⟩]⟩, ⟨[⟨0, 10, 1⟩]⟩, ⟨[⟨0, 40, 1⟩]⟩, ⟨[⟨20, 40, 0⟩]⟩,
         ⟨[⟨60, 100, 0⟩]⟩, ⟨[⟨70, 80, 0⟩]⟩, ⟨[⟨100, 150, 0⟩]⟩, ⟨[⟨180, 200, 0⟩]⟩,
         ⟨[⟨100, 200, 1⟩]⟩])) ∧
    ((computeWaste (Script.mk "myscript.js"
        [⟨[⟨0, 100, 1⟩]⟩, ⟨[⟨0, 10, 1⟩]⟩, ⟨[⟨0, 40, 1⟩]⟩, ⟨[⟨20, 40, 0⟩]⟩,
         ⟨[⟨60, 100, 0⟩]⟩, ⟨[⟨70, 80, 0⟩]⟩, ⟨[⟨100, 150, 0⟩]⟩, ⟨[⟨180, 200, 0⟩]⟩,
         ⟨[⟨100, 200, 1⟩]⟩]) ⟨"myscript.js", 1000⟩).wastedBytes ≤
      (computeWaste (Script.mk "myscript.js"
        [⟨[⟨0, 100, 1⟩]⟩, ⟨[⟨0, 10, 1⟩]⟩, ⟨[⟨0, 40, 1⟩]⟩, ⟨[⟨20, 40, 0⟩]⟩,
         ⟨[⟨60, 100, 0⟩]⟩, ⟨[⟨70, 80, 0⟩]⟩, ⟨[⟨100, 150, 0⟩]⟩, ⟨[⟨180, 200, 0⟩]⟩,
         ⟨[⟨100, 200, 1⟩]⟩]) ⟨"myscript.js", 1000⟩).totalBytes ∧
      0 ≤ (computeWaste (Script.mk "myscript.js"
        [⟨[⟨0, 100, 1⟩]⟩, ⟨[⟨0, 10, 1⟩]⟩, ⟨[⟨0, 40, 1⟩]⟩, ⟨[⟨20, 40, 0⟩]⟩,
         ⟨[⟨60, 100, 0⟩]⟩, ⟨[⟨70, 80, 0⟩]⟩, ⟨[⟨100, 150, 0⟩]⟩, ⟨[⟨180, 200, 0⟩]⟩,
         ⟨[⟨100, 200, 1⟩]⟩]) ⟨"myscript.js", 1000⟩).wastedPercent ∧
      (computeWaste (Script.mk "myscript.js"
        [⟨[⟨0, 100, 1⟩]⟩, ⟨[⟨0, 10, 1⟩]⟩, ⟨[⟨0, 40, 1⟩]⟩, ⟨[⟨20, 40, 0⟩]⟩,
         ⟨[⟨60, 100, 0⟩]⟩, ⟨[⟨70, 80, 0⟩]⟩, ⟨[⟨100, 150, 0⟩]⟩, ⟨[⟨180, 200, 0⟩]⟩,
         ⟨[⟨100, 200, 1⟩]⟩]) ⟨"myscript.js", 1000⟩).wastedPercent ≤ 100) :=
  ⟨by decide, by decide, by decide,
    computeWaste_invariant _ _ (by decide) (by decide) (by decide)⟩

theorem restOf_eq_filter {f : CovRange} {l : List CovRange}
    (hsorted : l.Pairwise (fun a b => a.startOffset ≤ b.startOffset)) :
    restOf f l = l.filter (fun r => f.endOffset ≤ r.startOffset) := by
  induction l with
  | nil => rfl
  | cons a t ih =>
    have ha : ∀ x ∈ t, a.startOffset ≤ x.startOffset := (List.pairwise_cons.mp hsorted).1
    have ht := (List.pairwise_cons.mp hsorted).2
    rw [restOf, List.dropWhile_cons, List.filter_cons]
    by_cases hc : a.startOffset < f.endOffset
    · rw [if_pos (by simpa using hc), if_neg (by simpa using hc)]
      exact ih ht
    · rw [if_neg (by simpa using hc), if_pos (by simpa using not_lt.mp hc)]
      congr 1
      have hall : ∀ x ∈ t, f.endOffset ≤ x.startOffset := by
        intro x hx
        exact le_trans (not_lt.mp hc) (ha x hx)
      exact (List.filter_eq_self.mpr (fun x hx => by simpa using hall x hx)).symm

/-- **C3**: in `findUsedAndUnused`, when the first range is unused and the second
range nests inside it (`second.startOffset < first.endOffset`), the result is the
first range's own pair `{used: 0, unused: span}` (its fields are derived, and it is
unused) added componentwise to the recursive decomposition of the rest sub-list —
the elements with `startOffset ≥ first.endOffset`, which under the sortedness
precondition is exactly what the code's scan keeps; the spanning children contribute
nothing. -/
theorem decompose_unused_parent_branch (f s : CovRange) (t : List CovRange)
    (hs : SortedRanges (f :: s :: t)) (hwf : RangeWF f) (hu : f.isUsed = false)
    (hnested : s.startOffset < f.endOffset) :
    findUsedAndUnused (f :: s :: t) =
      _add { used := 0, unused := f.endOffset - f.startOffset }
        (findUsedAndUnused ((s :: t).filter (fun r => f.endOffset ≤ r.startOffset))) := by
  rw [findUsedAndUnused_nested_unused f s t (by omega) hu]
  have hfilter : restOf f (s :: t) =
      (s :: t).filter (fun r => f.endOffset ≤ r.startOffset) := by
    apply restOf_eq_filter
    exact ((List.pairwise_cons.mp hs).2).imp (fun hab => rangeLE_start_le hab)
  rw [hfilter]
  obtain ⟨h0, hsp, hu', hun⟩ := hwf
  congr 1
  rw [rangePair, hu', hun, hu]
  simp

/-- Witness for C3 at a concrete unused parent with one nested child and one later
sibling. -/
theorem decompose_unused_parent_branch_witness :
    SortedRanges [⟨false, 0, 100, 0, 100⟩, ⟨true, 10, 20, 10, 0⟩,
        ⟨true, 150, 160, 10, 0⟩] ∧
    RangeWF ⟨false, 0, 100, 0, 100⟩ ∧
    (⟨false, 0, 100, 0, 100⟩ : CovRange).isUsed = false ∧
    (⟨true, 10, 20, 10, 0⟩ : CovRange).startOffset <
      (⟨false, 0, 100, 0, 100⟩ : CovRange).endOffset ∧
    findUsedAndUnused [⟨false, 0, 100, 0, 100⟩, ⟨true, 10, 20, 10, 0⟩,
        ⟨true, 150, 160, 10, 0⟩] =
      _add { used := 0, unused := 100 }
        (findUsedAndUnused ([⟨true, 10, 20, 10, 0⟩, ⟨true, 150, 160, 10, 0⟩].filter
          (fun r => (100 : Int) ≤ r.startOffset))) :=
  ⟨by decide, by decide, by decide, by decide,
    decompose_unused_parent_branch _ _ _ (by decide) (by decide) (by decide) (by decide)⟩

/-- **C4**: in `findUsedAndUnused`, when the sequence has at least two elements and
`second.startOffset >= first.endOffset`, the result is the componentwise sum of the
first range's own `{used, unused}` pair, the gap `second.startOffset -
first.endOffset` counted entirely as used, and the recursive decomposition of the
tail beginning at the second element. -/
theorem decompose_disjoint_branch (f s : CovRange) (t : List CovRange)
    (h : s.startOffset ≥ f.endOffset) :
    findUsedAndUnused (f :: s :: t) =
      _add (_add (rangePair f) { used := s.startOffset - f.endOffset, unused := 0 })
        (findUsedAndUnused (s :: t)) :=
  findUsedAndUnused_disjoint f s t h

/-- Witness for C4 at the repository test's two disjoint touching ranges. -/
theorem decompose_disjoint_branch_witness :
    (⟨false, 100, 120, 0, 20⟩ : CovRange).startOffset ≥
      (⟨true, 0, 100, 100, 0⟩ : CovRange).endOffset ∧
    findUsedAndUnused [⟨true, 0, 100, 100, 0⟩, ⟨false, 100, 120, 0, 20⟩] =
      _add (_add (rangePair ⟨true, 0, 100, 100, 0⟩) { used := 0, unused := 0 })
        (findUsedAndUnused [⟨false, 100, 120, 0, 20⟩]) := by
  refine ⟨by decide, ?_⟩
  have h := decompose_disjoint_branch ⟨true, 0, 100, 100, 0⟩ ⟨false, 100, 120, 0, 20⟩ []
    (by decide)
  simpa using h

/-- **C10**: under the precondition that the first range is well formed
(`endOffset > startOffset ≥ 0`), whenever the rest sub-list is nonempty, the
`nextStart` expression `(restOfRanges[0] && restOfRanges[0].startOffset) ||
firstRange.endOffset` evaluates to `restOfRanges[0].startOffset`: the head of the
rest starts at or after `firstRange.endOffset > 0`, so the falsy-zero fallback
cannot fire. -/
theorem nextStart_eq_head_start (f r : CovRange) (t rest₂ : List CovRange)
    (h0 : 0 ≤ f.startOffset) (hsp : f.startOffset < f.endOffset)
    (hrest : restOf f t = r :: rest₂) :
    nextStartOf (restOf f t) f = r.startOffset := by
  have hge := restOf_head_start hrest
  rw [hrest]
  exact nextStartOf_cons_of_ne (by omega)

/-- Witness for C10 at a concrete tail whose rest part is nonempty. -/
theorem nextStart_eq_head_start_witness :
    0 ≤ (⟨true, 0, 10, 10, 0⟩ : CovRange).startOffset ∧
    (⟨true, 0, 10, 10, 0⟩ : CovRange).startOffset <
      (⟨true, 0, 10, 10, 0⟩ : CovRange).endOffset ∧
    restOf ⟨true, 0, 10, 10, 0⟩ [⟨true, 5, 8, 3, 0⟩, ⟨true, 12, 15, 3, 0⟩] =
      [⟨true, 12, 15, 3, 0⟩] ∧
    nextStartOf (restOf ⟨true, 0, 10, 10, 0⟩ [⟨true, 5, 8, 3, 0⟩, ⟨true, 12, 15, 3, 0⟩])
      ⟨true, 0, 10, 10, 0⟩ = 12 :=
  ⟨by decide, by decide, by decide,
    nextStart_eq_head_start ⟨true, 0, 10, 10, 0⟩ ⟨true, 12, 15, 3, 0⟩
      [⟨true, 5, 8, 3, 0⟩, ⟨true, 12, 15, 3, 0⟩] [] (by decide) (by decide) (by decide)⟩

/-- **C5**: whenever the decomposed totals satisfy `used + unused > 0`,
`computeWaste` returns `wastedPercent = 100 * unused/(unused + used)` and
`wastedBytes = round(transferSize * unused/(unused + used))`, with `round` the
source's `Math.round` (round half toward positive infinity). -/
theorem computeWaste_formula (script : Script) (networkRecord : ResourceRecord)
    (hpos : 0 < (decomposed script).used + (decomposed script).unused) :
    (computeWaste script networkRecord).wastedPercent =
      100 * (((decomposed script).unused : ℚ) /
        (((decomposed script).unused : ℚ) + ((decomposed script).used : ℚ))) ∧
    (computeWaste script networkRecord).wastedBytes =
      jsRound ((networkRecord.transferSize : ℚ) *
        (((decomposed script).unused : ℚ) /
          (((decomposed script).unused : ℚ) + ((decomposed script).used : ℚ)))) := by
  have hne : (decomposed script).unused + (decomposed script).used ≠ 0 := by omega
  constructor
  · show 100 * wastedRatio (decomposed script) = _
    rw [wastedRatio_eq_ite, if_neg hne]
  · show jsRound ((networkRecord.transferSize : ℚ) * wastedRatio (decomposed script)) = _
    rw [wastedRatio_eq_ite, if_neg hne]

/-- Witness for C5: the repository test script is 35% used / 65% unused; joined
with `transferSize = 1000` it yields `wastedPercent = 65` and `wastedBytes = 650`. -/
theorem computeWaste_formula_witness :
    0 < (decomposed (Script.mk "myscript.js"
        [⟨[⟨0, 100, 1⟩]⟩, ⟨[⟨0, 10, 1⟩]⟩, ⟨[⟨0, 40, 1⟩]⟩, ⟨[⟨20, 40, 0⟩]⟩,
         ⟨[⟨60, 100, 0⟩]⟩, ⟨[⟨70, 80, 0⟩]⟩, ⟨[⟨100, 150, 0⟩]⟩, ⟨[⟨180, 200, 0⟩]⟩,
         ⟨[⟨100, 200, 1⟩]⟩])).used +
      (decomposed (Script.mk "myscript.js"
        [⟨[⟨0, 100, 1⟩]⟩, ⟨[⟨0, 10, 1⟩]⟩, ⟨[⟨0, 40, 1⟩]⟩, ⟨[⟨20, 40, 0⟩]⟩,
         ⟨[⟨60, 100, 0⟩]⟩, ⟨[⟨70, 80, 0⟩]⟩, ⟨[⟨100, 150, 0⟩]⟩, ⟨[⟨180, 200, 0⟩]⟩,
         ⟨[⟨100, 200, 1⟩]⟩])).unused ∧
    (computeWaste (Script.mk "myscript.js"
        [⟨[⟨0, 100, 1⟩]⟩, ⟨[⟨0, 10, 1⟩]⟩, ⟨[⟨0, 40, 1⟩]⟩, ⟨[⟨20, 40, 0⟩]⟩,
         ⟨[⟨60, 100, 0⟩]⟩, ⟨[⟨70, 80, 0⟩]⟩, ⟨[⟨100, 150, 0⟩]⟩, ⟨[⟨180, 200, 0⟩]⟩,
         ⟨[⟨100, 200, 1⟩]⟩]) ⟨"myscript.js", 1000⟩).wastedPercent = 65 ∧
    (computeWaste (Script.mk "myscript.js"
        [⟨[⟨0, 100, 1⟩]⟩, ⟨[⟨0, 10, 1⟩]⟩, ⟨[⟨0, 40, 1⟩]⟩, ⟨[⟨20, 40, 0⟩]⟩,
         ⟨[⟨60, 100, 0⟩]⟩, ⟨[⟨70, 80, 0⟩]⟩, ⟨[⟨100, 150, 0⟩]⟩, ⟨[⟨180, 200, 0⟩]⟩,
         ⟨[⟨100, 200, 1⟩]⟩]) ⟨"myscript.js", 1000⟩).wastedBytes = 650 := by
  have hval : decomposed (Script.mk "myscript.js"
      [⟨[⟨0, 100, 1⟩]⟩, ⟨[⟨0, 10, 1⟩]⟩, ⟨[⟨0, 40, 1⟩]⟩, ⟨[⟨20, 40, 0⟩]⟩,
       ⟨[⟨60, 100, 0⟩]⟩, ⟨[⟨70, 80, 0⟩]⟩, ⟨[⟨100, 150, 0⟩]⟩, ⟨[⟨180, 200, 0⟩]⟩,
       ⟨[⟨100, 200, 1⟩]⟩]) = ⟨70, 130⟩ := by
    simp [decomposed, sortedRanges, flattenRanges, toCovRange, rangeLE, findUsedAndUnused,
      rangePair, _add, spanningOf, restOf, nextStartOf, latestEndOf, latestEndReduce,
      List.insertionSort, List.orderedInsert]
  have hpos : 0 < (decomposed (Script.mk "myscript.js"
      [⟨[⟨0, 100, 1⟩]⟩, ⟨[⟨0, 10, 1⟩]⟩, ⟨[⟨0, 40, 1⟩]⟩, ⟨[⟨20, 40, 0⟩]⟩,
       ⟨[⟨60, 100, 0⟩]⟩, ⟨[⟨70, 80, 0⟩]⟩, ⟨[⟨100, 150, 0⟩]⟩, ⟨[⟨180, 200, 0⟩]⟩,
       ⟨[⟨100, 200, 1⟩]⟩])).used + (decomposed (Script.mk "myscript.js"
      [⟨[⟨0, 100, 1⟩]⟩, ⟨[⟨0, 10, 1⟩]⟩, ⟨[⟨0, 40, 1⟩]⟩, ⟨[⟨20, 40, 0⟩]⟩,
       ⟨[⟨60, 100, 0⟩]⟩, ⟨[⟨70, 80, 0⟩]⟩, ⟨[⟨100, 150, 0⟩]⟩, ⟨[⟨180, 200, 0⟩]⟩,
       ⟨[⟨100, 200, 1⟩]⟩])).unused := by
    rw [hval]
    decide
  obtain ⟨hp, hb⟩ := computeWaste_formula (Script.mk "myscript.js"
      [⟨[⟨0, 100, 1⟩]⟩, ⟨[⟨0, 10, 1⟩]⟩, ⟨[⟨0, 40, 1⟩]⟩, ⟨[⟨20, 40, 0⟩]⟩,
       ⟨[⟨60, 100, 0⟩]⟩, ⟨[⟨70, 80, 0⟩]⟩, ⟨[⟨100, 150, 0⟩]⟩, ⟨[⟨180, 200, 0⟩]⟩,
       ⟨[⟨100, 200, 1⟩]⟩]) ⟨"myscript.js", 1000⟩ hpos
  refine ⟨hpos, ?_, ?_⟩
  · rw [hp, hval]
    norm_num
  · rw [hb, hval]
    norm_num [jsRound]

/-- **C6** (counterexample): the claim quantifies over every script whose decomposed
totals sum to zero.  For the script with functions `[[0,10) count 1]` and
`[[10,0) count 0]` (the second range malformed), the decomposition is
`{used: 10, unused: -10}` — sum zero — and the JS expression
`(unused/(unused+used)) || 0` evaluates to `-10/0 = -Infinity`, which is truthy and
survives `|| 0`; `wastedBytes = Math.round(1000 * -Infinity)` and
`wastedPercent = 100 * -Infinity` are `-Infinity`, not `0`. -/
theorem computeWaste_degenerate_ratio_counterexample :
    decomposed ⟨"x.js", [⟨[⟨0, 10, 1⟩]⟩, ⟨[⟨10, 0, 0⟩]⟩]⟩ = ⟨10, -10⟩ ∧
    (decomposed ⟨"x.js", [⟨[⟨0, 10, 1⟩]⟩, ⟨[⟨10, 0, 0⟩]⟩]⟩).used +
      (decomposed ⟨"x.js", [⟨[⟨0, 10, 1⟩]⟩, ⟨[⟨10, 0, 0⟩]⟩]⟩).unused = 0 ∧
    wastedRatioJS (decomposed ⟨"x.js", [⟨[⟨0, 10, 1⟩]⟩, ⟨[⟨10, 0, 0⟩]⟩]⟩) =
      JSNum.negInf ∧
    wastedBytesJS ⟨"x.js", [⟨[⟨0, 10, 1⟩]⟩, ⟨[⟨10, 0, 0⟩]⟩]⟩ ⟨"x.js", 1000⟩ =
      JSNum.negInf ∧
    wastedPercentJS ⟨"x.js", [⟨[⟨0, 10, 1⟩]⟩, ⟨[⟨10, 0, 0⟩]⟩]⟩ = JSNum.negInf ∧
    JSNum.negInf ≠ JSNum.num 0 := by
  have hval : decomposed ⟨"x.js", [⟨[⟨0, 10, 1⟩]⟩, ⟨[⟨10, 0, 0⟩]⟩]⟩ = ⟨10, -10⟩ := by
    simp [decomposed, sortedRanges, flattenRanges, toCovRange, rangeLE, findUsedAndUnused,
      rangePair, _add, spanningOf, restOf, nextStartOf, latestEndOf, latestEndReduce,
      List.insertionSort, List.orderedInsert]
  refine ⟨hval, by simp [hval], ?_, ?_, ?_, by decide⟩
  · rw [hval]
    norm_num [wastedRatioJS, jsDiv, jsOrZero]
  · unfold wastedBytesJS
    rw [hval]
    norm_num [wastedRatioJS, jsDiv, jsOrZero, jsMulNum, jsRoundJS]
  · unfold wastedPercentJS
    rw [hval]
    norm_num [wastedRatioJS, jsDiv, jsOrZero, jsMulNum]

/-- **C6** (amended): when the decomposed totals are componentwise zero —
`used = 0` and `unused = 0`, e.g. a script with no ranges — the JS expression
`(unused/(unused+used)) || 0` goes through the `0/0 = NaN` branch, which `|| 0`
converts to `0`: the ratio is `0` rather than a division fault, and `wastedBytes`
and `wastedPercent` are `0` for any transfer size, in the faithful JS pipeline
(`wastedRatioJS`, `wastedBytesJS`, `wastedPercentJS`) as well as in the record
fields.  (With a zero sum but nonzero components — reachable only through
malformed ranges — JS instead yields a signed infinity; see the counterexample.) -/
theorem computeWaste_degenerate_ratio (script : Script) (networkRecord : ResourceRecord)
    (hu : (decomposed script).used = 0) (hn : (decomposed script).unused = 0) :
    wastedRatioJS (decomposed script) = JSNum.num 0 ∧
    wastedRatio (decomposed script) = 0 ∧
    (computeWaste script networkRecord).wastedBytes = 0 ∧
    (computeWaste script networkRecord).wastedPercent = 0 ∧
    wastedBytesJS script networkRecord = JSNum.num 0 ∧
    wastedPercentJS script = JSNum.num 0 := by
  have hjs : wastedRatioJS (decomposed script) = JSNum.num 0 := by
    unfold wastedRatioJS
    rw [hu, hn]
    simp [jsDiv, jsOrZero]
  have hr : wastedRatio (decomposed script) = 0 := by
    unfold wastedRatio
    rw [hjs]
  refine ⟨hjs, hr, ?_, ?_, ?_, ?_⟩
  · show jsRound ((networkRecord.transferSize : ℚ) * wastedRatio (decomposed script)) = 0
    rw [hr, mul_zero]
    norm_num [jsRound]
  · show 100 * wastedRatio (decomposed script) = 0
    rw [hr, mul_zero]
  · unfold wastedBytesJS
    rw [hjs]
    norm_num [jsMulNum, jsRoundJS, jsRound]
  · unfold wastedPercentJS
    rw [hjs]
    simp [jsMulNum]

/-- Witness for the amended C6 theorem: a script with no ranges at all reports zero
waste against any transfer size, through the faithful pipeline as well. -/
theorem computeWaste_degenerate_ratio_witness :
    (decomposed (Script.mk "empty.js" [])).used = 0 ∧
    (decomposed (Script.mk "empty.js" [])).unused = 0 ∧
    wastedRatioJS (decomposed (Script.mk "empty.js" [])) = JSNum.num 0 ∧
    (computeWaste (Script.mk "empty.js" []) ⟨"empty.js", 12345⟩).wastedBytes = 0 ∧
    (computeWaste (Script.mk "empty.js" []) ⟨"empty.js", 12345⟩).wastedPercent = 0 ∧
    wastedBytesJS (Script.mk "empty.js" []) ⟨"empty.js", 12345⟩ = JSNum.num 0 := by
  have hval : decomposed (Script.mk "empty.js" []) = ⟨0, 0⟩ := by
    simp [decomposed, sortedRanges, flattenRanges, findUsedAndUnused, List.insertionSort]
  have hu : (decomposed (Script.mk "empty.js" [])).used = 0 := by simp [hval]
  have hn : (decomposed (Script.mk "empty.js" [])).unused = 0 := by simp [hval]
  obtain ⟨h1, h2, h3, h4, h5, h6⟩ := computeWaste_degenerate_ratio (Script.mk "empty.js" [])
    ⟨"empty.js", 12345⟩ hu hn
  exact ⟨hu, hn, h1, h3, h4, h5⟩

namespace UnusedJavaScript

/-- The joined per-script results (scripts whose URL has a network record), in scan
order. -/
def joinedResults (networkRecords : List ResourceRecord) (jsUsage : List Script) :
    List WasteResult :=
  jsUsage.filterMap (joinScript networkRecords)

/-- Running minimum by `wastedBytes` with the dedup policy of `audit_`: a later
element replaces the current one only when strictly smaller. -/
def pickMinFrom (acc : Option WasteResult) (l : List WasteResult) : Option WasteResult :=
  l.foldl (fun a r =>
    match a with
    | none => some r
    | some existing =>
      if existing.wastedBytes > r.wastedBytes then some r else some existing) acc

theorem mapGet?_set_self : ∀ (m : List (String × WasteResult)) (k : String)
    (v : WasteResult), mapGet? (mapSet m k v) k = some v := by
  intro m k v
  unfold mapSet
  by_cases hany : m.any (fun p => p.1 == k)
  · rw [if_pos hany]
    induction m with
    | nil => simp at hany
    | cons p t ih =>
      rw [List.map_cons]
      unfold mapGet?
      rw [List.find?_cons]
      by_cases hp : p.1 == k
      · rw [if_pos hp]
        simp
      · rw [if_neg hp]
        simp only [hp, Bool.false_eq_true, if_false]
        have hany2 : t.any (fun p => p.1 == k) := by
          rcases List.any_eq_true.mp hany with ⟨q, hq, hqk⟩
          rcases List.mem_cons.mp hq with hq1 | hq1
          · exact absurd (hq1 ▸ hqk) (by simpa using hp)
          · exact List.any_eq_true.mpr ⟨q, hq1, hqk⟩
        exact ih hany2
  · rw [if_neg hany]
    induction m with
    | nil =>
      unfold mapGet?
      simp
    | cons p t ih =>
      have hp : ¬ (p.1 == k) = true := by
        intro hp
        exact hany (List.any_eq_true.mpr ⟨p, by simp, hp⟩)
      have hany2 : ¬ t.any (fun p => p.1 == k) = true := by
        intro h2
        rcases List.any_eq_true.mp h2 with ⟨q, hq, hqk⟩
        exact hany (List.any_eq_true.mpr ⟨q, List.mem_cons_of_mem p hq, hqk⟩)
      unfold mapGet? at ih ⊢
      rw [List.cons_append, List.find?_cons]
      simp only [hp, Bool.false_eq_true, if_false]
      exact ih hany2

theorem mapGet?_set_ne : ∀ (m : List (String × WasteResult)) (k u : String)
    (v : WasteResult), u ≠ k → mapGet? (mapSet m k v) u = mapGet? m u := by
  intro m k u v hne
  unfold mapSet
  by_cases hany : m.any (fun p => p.1 == k)
  · rw [if_pos hany]
    clear hany
    induction m with
    | nil => rfl
    | cons p t ih =>
      rw [List.map_cons]
      unfold mapGet?
      rw [List.find?_cons, List.find?_cons]
      by_cases hp : p.1 == k
      · have hpk : p.1 = k := beq_iff_eq.mp hp
        have h1 : ¬ ((k, v).1 == u) = true := by
          simp only [beq_iff_eq]
          intro h
          exact hne h.symm
        have h2 : ¬ (p.1 == u) = true := by
          simp only [beq_iff_eq, hpk]
          intro h
          exact hne h.symm
        rw [if_pos hp]
        simp only [h1, h2, Bool.false_eq_true, if_false]
        exact ih
      · rw [if_neg hp]
        by_cases hpu : p.1 == u
        · simp only [hpu, if_true]
        · simp only [hpu, Bool.false_eq_true, if_false]
          exact ih
  · rw [if_neg hany]
    induction m with
    | nil =>
      unfold mapGet?
      simp only [List.nil_append, List.find?_cons, List.find?_nil]
      have h1 : ¬ ((k, v).1 == u) = true := by
        simp only [beq_iff_eq]
        intro h
        exact hne h.symm
      simp [h1]
    | cons p t ih =>
      have hany2 : ¬ t.any (fun p => p.1 == k) = true := by
        intro h2
        rcases List.any_eq_true.mp h2 with ⟨q, hq, hqk⟩
        exact hany (List.any_eq_true.mpr ⟨q, List.mem_cons_of_mem p hq, hqk⟩)
      unfold mapGet? at ih ⊢
      rw [List.cons_append, List.find?_cons, List.find?_cons]
      by_cases hpu : p.1 == u
      · simp only [hpu, if_true]
      · simp only [hpu, Bool.false_eq_true, if_false]
        exact ih hany2

end UnusedJavaScript

namespace UnusedJavaScript

theorem pickMinFrom_nil (acc : Option WasteResult) : pickMinFrom acc [] = acc := rfl

theorem pickMinFrom_cons_none (r : WasteResult) (l : List WasteResult) :
    pickMinFrom none (r :: l) = pickMinFrom (some r) l := rfl

theorem pickMinFrom_cons_some (e r : WasteResult) (l : List WasteResult) :
    pickMinFrom (some e) (r :: l) =
      pickMinFrom (if e.wastedBytes > r.wastedBytes then some r else some e) l := rfl

theorem auditStep_none {nr : List ResourceRecord} {m : List (String × WasteResult)}
    {s : Script} (h : joinScript nr s = none) : auditStep nr m s = m := by
  simp only [auditStep, h]

theorem auditStep_some_new {nr : List ResourceRecord} {m : List (String × WasteResult)}
    {s : Script} {result : WasteResult} (h : joinScript nr s = some result)
    (hex : mapGet? m result.url = none) :
    auditStep nr m s = mapSet m result.url result := by
  simp only [auditStep, h, hex]

theorem auditStep_some_replace {nr : List ResourceRecord}
    {m : List (String × WasteResult)} {s : Script} {result existing : WasteResult}
    (h : joinScript nr s = some result) (hex : mapGet? m result.url = some existing)
    (hc : existing.wastedBytes > result.wastedBytes) :
    auditStep nr m s = mapSet m result.url result := by
  simp only [auditStep, h, hex, if_pos hc]

theorem auditStep_some_keep {nr : List ResourceRecord}
    {m : List (String × WasteResult)} {s : Script} {result existing : WasteResult}
    (h : joinScript nr s = some result) (hex : mapGet? m result.url = some existing)
    (hc : ¬ existing.wastedBytes > result.wastedBytes) :
    auditStep nr m s = m := by
  simp only [auditStep, h, hex, if_neg hc]

/-- The deduplicating fold is characterised pointwise: the entry stored at key `u`
is the running strict minimum by `wastedBytes` of the joined results whose URL is
`u`, seeded with whatever the accumulator map already stores at `u`. -/
theorem resultsMap_get_eq_pickMin (nr : List ResourceRecord) :
    ∀ (js : List Script) (m : List (String × WasteResult)) (u : String),
      mapGet? (js.foldl (auditStep nr) m) u =
        pickMinFrom (mapGet? m u)
          ((joinedResults nr js).filter (fun w => w.url == u)) := by
  intro js
  induction js with
  | nil =>
    intro m u
    simp [joinedResults, pickMinFrom]
  | cons s rest ih =>
    intro m u
    simp only [joinedResults] at ih ⊢
    rw [List.foldl_cons]
    cases hjs : joinScript nr s with
    | none =>
      rw [auditStep_none hjs, ih]
      simp only [List.filterMap_cons, hjs]
    | some result =>
      simp only [List.filterMap_cons, hjs]
      rw [List.filter_cons]
      by_cases hu1 : (result.url == u) = true
      · have hueq : result.url = u := beq_iff_eq.mp hu1
        subst hueq
        rw [if_pos hu1]
        cases hex : mapGet? m result.url with
        | none =>
          rw [auditStep_some_new hjs hex, ih, mapGet?_set_self, pickMinFrom_cons_none]
        | some existing =>
          by_cases hc : existing.wastedBytes > result.wastedBytes
          · rw [auditStep_some_replace hjs hex hc, ih, mapGet?_set_self,
              pickMinFrom_cons_some, if_pos hc]
          · rw [auditStep_some_keep hjs hex hc, ih, hex, pickMinFrom_cons_some,
              if_neg hc]
      · rw [if_neg hu1]
        have hne : u ≠ result.url := fun h => hu1 (beq_iff_eq.mpr h.symm)
        cases hex : mapGet? m result.url with
        | none =>
          rw [auditStep_some_new hjs hex, ih, mapGet?_set_ne _ _ _ _ hne]
        | some existing =>
          by_cases hc : existing.wastedBytes > result.wastedBytes
          · rw [auditStep_some_replace hjs hex hc, ih, mapGet?_set_ne _ _ _ _ hne]
          · rw [auditStep_some_keep hjs hex hc, ih]

theorem pickMinFrom_spec : ∀ (l : List WasteResult) (acc : Option WasteResult)
    (w : WasteResult), pickMinFrom acc l = some w →
      (acc = some w ∨ w ∈ l) ∧
      (∀ e, acc = some e → w.wastedBytes ≤ e.wastedBytes) ∧
      (∀ x ∈ l, w.wastedBytes ≤ x.wastedBytes) := by
  intro l
  induction l with
  | nil =>
    intro acc w h
    rw [pickMinFrom_nil] at h
    refine ⟨Or.inl h, ?_, by simp⟩
    intro e he
    rw [h] at he
    cases he
    exact le_refl _
  | cons r t ih =>
    intro acc w h
    cases acc with
    | none =>
      rw [pickMinFrom_cons_none] at h
      obtain ⟨hm, hacc, hall⟩ := ih (some r) w h
      refine ⟨?_, ?_, ?_⟩
      · rcases hm with hm | hm
        · right
          rw [← Option.some_inj.mp hm]
          exact List.mem_cons_self r t
        · right
          exact List.mem_cons_of_mem r hm
      · intro e he
        simp at he
      · intro x hx
        rcases List.mem_cons.mp hx with hx | hx
        · rw [hx]
          exact hacc r rfl
        · exact hall x hx
    | some e =>
      rw [pickMinFrom_cons_some] at h
      by_cases hc : e.wastedBytes > r.wastedBytes
      · rw [if_pos hc] at h
        obtain ⟨hm, hacc, hall⟩ := ih (some r) w h
        have hwr : w.wastedBytes ≤ r.wastedBytes := hacc r rfl
        refine ⟨?_, ?_, ?_⟩
        · rcases hm with hm | hm
          · right
            rw [← Option.some_inj.mp hm]
            exact List.mem_cons_self r t
          · right
            exact List.mem_cons_of_mem r hm
        · intro e2 he2
          have he2' : e2 = e := Option.some_inj.mp he2.symm
          rw [he2']
          omega
        · intro x hx
          rcases List.mem_cons.mp hx with hx | hx
          · rw [hx]
            exact hwr
          · exact hall x hx
      · rw [if_neg hc] at h
        obtain ⟨hm, hacc, hall⟩ := ih (some e) w h
        have hwe : w.wastedBytes ≤ e.wastedBytes := hacc e rfl
        refine ⟨?_, ?_, ?_⟩
        · rcases hm with hm | hm
          · left
            exact hm
          · right
            exact List.mem_cons_of_mem r hm
        · intro e2 he2
          have he2' : e2 = e := Option.some_inj.mp he2.symm
          rw [he2']
          exact hwe
        · intro x hx
          rcases List.mem_cons.mp hx with hx | hx
          · rw [hx]
            omega
          · exact hall x hx

end UnusedJavaScript

/-- Invariant of the per-URL results map: keys are distinct and every stored
result's `url` equals its key. -/
def MapWF (m : List (String × WasteResult)) : Prop :=
  (m.map Prod.fst).Nodup ∧ ∀ p ∈ m, p.2.url = p.1

theorem MapWF.nil : MapWF [] := ⟨List.nodup_nil, by simp⟩

theorem mapSet_keys (m : List (String × WasteResult)) (k : String) (v : WasteResult) :
    (mapSet m k v).map Prod.fst =
      if m.any (fun p => p.1 == k) then m.map Prod.fst
      else m.map Prod.fst ++ [k] := by
  unfold mapSet
  by_cases hany : m.any (fun p => p.1 == k)
  · rw [if_pos hany, if_pos hany, List.map_map]
    apply List.map_congr_left
    intro p hp
    by_cases hpk : (p.1 == k) = true
    · have : p.1 = k := beq_iff_eq.mp hpk
      simp [hpk, this]
    · have hne : p.1 ≠ k := fun hh => hpk (beq_iff_eq.mpr hh)
      simp [hpk, hne]
  · rw [if_neg hany, if_neg hany, List.map_append]
    rfl

theorem mapSet_wf {m : List (String × WasteResult)} {k : String} {v : WasteResult}
    (h : MapWF m) (hv : v.url = k) : MapWF (mapSet m k v) := by
  obtain ⟨hkeys, hvals⟩ := h
  constructor
  · rw [mapSet_keys]
    by_cases hany : m.any (fun p => p.1 == k)
    · rw [if_pos hany]
      exact hkeys
    · rw [if_neg hany]
      rw [List.nodup_append]
      refine ⟨hkeys, List.nodup_singleton k, ?_⟩
      intro a ha hb
      have hak : a = k := by simpa using hb
      rcases List.mem_map.mp ha with ⟨p, hp, hpa⟩
      have : (p.1 == k) = true := beq_iff_eq.mpr (hpa.trans hak)
      exact hany (List.any_eq_true.mpr ⟨p, hp, this⟩)
  · intro p hp
    unfold mapSet at hp
    by_cases hany : m.any (fun q => q.1 == k)
    · rw [if_pos hany] at hp
      rcases List.mem_map.mp hp with ⟨q, hq, hqp⟩
      by_cases hqk : (q.1 == k) = true
      · rw [if_pos hqk] at hqp
        rw [← hqp]
        exact hv
      · rw [if_neg hqk] at hqp
        rw [← hqp]
        exact hvals q hq
    · rw [if_neg hany] at hp
      rcases List.mem_append.mp hp with hp1 | hp1
      · exact hvals p hp1
      · have : p = (k, v) := by simpa using hp1
        rw [this]
        exact hv

theorem resultsMap_wf (nr : List ResourceRecord) :
    ∀ (js : List Script) (m : List (String × WasteResult)), MapWF m →
      MapWF (js.foldl (auditStep nr) m) := by
  intro js
  induction js with
  | nil => intro m hm; exact hm
  | cons s rest ih =>
    intro m hm
    rw [List.foldl_cons]
    apply ih
    cases hjs : joinScript nr s with
    | none =>
      rw [auditStep_none hjs]
      exact hm
    | some result =>
      cases hex : mapGet? m result.url with
      | none =>
        rw [auditStep_some_new hjs hex]
        exact mapSet_wf hm rfl
      | some existing =>
        by_cases hc : existing.wastedBytes > result.wastedBytes
        · rw [auditStep_some_replace hjs hex hc]
          exact mapSet_wf hm rfl
        · rw [auditStep_some_keep hjs hex hc]
          exact hm

theorem values_filter_url_le_one {u : String} :
    ∀ {m : List (String × WasteResult)}, MapWF m →
      ((m.map Prod.snd).filter (fun w => w.url == u)).length ≤ 1 := by
  intro m
  induction m with
  | nil => intro _; simp
  | cons p t ih =>
    intro hm
    obtain ⟨hkeys, hvals⟩ := hm
    rw [List.map_cons] at hkeys ⊢
    have hknodup := List.nodup_cons.mp hkeys
    rw [List.filter_cons]
    by_cases hpu : (p.2.url == u) = true
    · rw [if_pos hpu]
      have hpk : p.2.url = p.1 := hvals p (by simp)
      have hku : p.1 = u := ((beq_iff_eq.mp hpu).symm.trans hpk).symm
      have hnil : (t.map Prod.snd).filter (fun w => w.url == u) = [] := by
        rw [List.filter_eq_nil_iff]
        intro w hw
        rcases List.mem_map.mp hw with ⟨q, hq, hqw⟩
        have hqk : q.2.url = q.1 := hvals q (List.mem_cons_of_mem p hq)
        intro hwu
        have : q.1 = u := by
          rw [← hqk, hqw]
          exact beq_iff_eq.mp hwu
        exact hknodup.1 (by
          rw [← hku] at this
          exact this ▸ List.mem_map.mpr ⟨q, hq, rfl⟩)
      rw [List.length_cons, hnil]
      simp
    · rw [if_neg hpu]
      exact ih ⟨hknodup.2, fun q hq => hvals q (List.mem_cons_of_mem p hq)⟩

/-- **C7**: for every URL `u`, the deduplicated entry stored for `u` (when present)
is one of the successfully joined per-script results with that URL and has the
smallest `wastedBytes` among them; if no script with URL `u` joins to a network
record, no entry for `u` exists; and the final output never retains more than one
result per URL.  Scripts with no record whose `url` is exactly equal are excluded
by the join (`joinedResults` only contains scripts for which `find` succeeds), not
reported as an error. -/
theorem audit_dedup_by_url (jsUsage : List Script) (networkRecords : List ResourceRecord)
    (u : String) :
    (∀ w, mapGet? (resultsMap jsUsage networkRecords) u = some w →
      w ∈ (joinedResults networkRecords jsUsage).filter (fun x => x.url == u) ∧
      ∀ x ∈ (joinedResults networkRecords jsUsage).filter (fun x => x.url == u),
        w.wastedBytes ≤ x.wastedBytes) ∧
    ((joinedResults networkRecords jsUsage).filter (fun x => x.url == u) = [] →
      mapGet? (resultsMap jsUsage networkRecords) u = none) ∧
    ((audit_ jsUsage networkRecords).filter (fun x => x.url == u)).length ≤ 1 := by
  have hchar := resultsMap_get_eq_pickMin networkRecords jsUsage
    ([] : List (String × WasteResult)) u
  refine ⟨?_, ?_, ?_⟩
  · intro w hw
    unfold resultsMap at hw
    rw [hchar] at hw
    obtain ⟨hm, _, hall⟩ := pickMinFrom_spec _ _ _ hw
    rcases hm with hm | hm
    · simp [mapGet?] at hm
    · exact ⟨hm, hall⟩
  · intro hnil
    unfold resultsMap
    rw [hchar, hnil, pickMinFrom_nil]
    simp [mapGet?]
  · have hwf := resultsMap_wf networkRecords jsUsage
      ([] : List (String × WasteResult)) MapWF.nil
    have hsub : ((audit_ jsUsage networkRecords).filter (fun x => x.url == u)).Sublist
        (((resultsMap jsUsage networkRecords).map Prod.snd).filter
          (fun x => x.url == u)) := by
      unfold audit_
      exact List.Sublist.filter _ (List.filter_sublist _)
    exact le_trans hsub.length_le (values_filter_url_le_one hwf)

/-- Witness for C7: two scripts share the URL `a.js` (one fully unused, giving
wasted bytes 5000; one fully used, giving 0); the retained entry is the lower-waste
one, and a third script with URL `c.js` that matches no network record contributes
nothing. -/
theorem audit_dedup_by_url_witness :
    mapGet? (resultsMap
        [⟨"a.js", [⟨[⟨0, 100, 0⟩]⟩]⟩, ⟨"a.js", [⟨[⟨0, 100, 1⟩]⟩]⟩,
         ⟨"c.js", [⟨[⟨0, 10, 0⟩]⟩]⟩] [⟨"a.js", 5000⟩]) "a.js" =
      some (⟨"a.js", 5000, 0, 0, 0⟩ : WasteResult) ∧
    (⟨"a.js", 5000, 0, 0, 0⟩ : WasteResult) ∈
      (joinedResults [⟨"a.js", 5000⟩]
        [⟨"a.js", [⟨[⟨0, 100, 0⟩]⟩]⟩, ⟨"a.js", [⟨[⟨0, 100, 1⟩]⟩]⟩,
         ⟨"c.js", [⟨[⟨0, 10, 0⟩]⟩]⟩]).filter (fun x => x.url == "a.js") ∧
    (∀ x ∈ (joinedResults [⟨"a.js", 5000⟩]
        [⟨"a.js", [⟨[⟨0, 100, 0⟩]⟩]⟩, ⟨"a.js", [⟨[⟨0, 100, 1⟩]⟩]⟩,
         ⟨"c.js", [⟨[⟨0, 10, 0⟩]⟩]⟩]).filter (fun x => x.url == "a.js"),
      (⟨"a.js", 5000, 0, 0, 0⟩ : WasteResult).wastedBytes ≤ x.wastedBytes) ∧
    mapGet? (resultsMap
        [⟨"a.js", [⟨[⟨0, 100, 0⟩]⟩]⟩, ⟨"a.js", [⟨[⟨0, 100, 1⟩]⟩]⟩,
         ⟨"c.js", [⟨[⟨0, 10, 0⟩]⟩]⟩] [⟨"a.js", 5000⟩]) "c.js" = none := by
  have hmap : resultsMap
      [⟨"a.js", [⟨[⟨0, 100, 0⟩]⟩]⟩, ⟨"a.js", [⟨[⟨0, 100, 1⟩]⟩]⟩,
       ⟨"c.js", [⟨[⟨0, 10, 0⟩]⟩]⟩] [⟨"a.js", 5000⟩] =
      [("a.js", ⟨"a.js", 5000, 0, 0, 0⟩)] := by
    simp [resultsMap, auditStep, joinScript, mapGet?, mapSet, computeWaste, getDisplayName,
      decomposed, sortedRanges, flattenRanges, toCovRange, rangeLE, wastedRatio_eq_ite, jsRound,
      numUnusedFunctions, functionIsUsed, findUsedAndUnused, rangePair, _add, spanningOf,
      restOf, nextStartOf, latestEndOf, latestEndReduce, List.insertionSort,
      List.orderedInsert, List.find?]
    norm_num
  have hjoined : joinedResults [⟨"a.js", 5000⟩]
      [⟨"a.js", [⟨[⟨0, 100, 0⟩]⟩]⟩, ⟨"a.js", [⟨[⟨0, 100, 1⟩]⟩]⟩,
       ⟨"c.js", [⟨[⟨0, 10, 0⟩]⟩]⟩] =
      [⟨"a.js", 5000, 5000, 100, 1⟩, ⟨"a.js", 5000, 0, 0, 0⟩] := by
    simp [joinedResults, joinScript, computeWaste, getDisplayName, decomposed, sortedRanges,
      flattenRanges, toCovRange, rangeLE, wastedRatio_eq_ite, jsRound, numUnusedFunctions,
      functionIsUsed, findUsedAndUnused, rangePair, _add, spanningOf, restOf, nextStartOf,
      latestEndOf, latestEndReduce, List.insertionSort, List.orderedInsert, List.find?]
    norm_num
  have hget : mapGet? (resultsMap
      [⟨"a.js", [⟨[⟨0, 100, 0⟩]⟩]⟩, ⟨"a.js", [⟨[⟨0, 100, 1⟩]⟩]⟩,
       ⟨"c.js", [⟨[⟨0, 10, 0⟩]⟩]⟩] [⟨"a.js", 5000⟩]) "a.js" =
      some (⟨"a.js", 5000, 0, 0, 0⟩ : WasteResult) := by
    rw [hmap]
    decide
  obtain ⟨hmem, hmin⟩ := (audit_dedup_by_url
    [⟨"a.js", [⟨[⟨0, 100, 0⟩]⟩]⟩, ⟨"a.js", [⟨[⟨0, 100, 1⟩]⟩]⟩,
     ⟨"c.js", [⟨[⟨0, 10, 0⟩]⟩]⟩] [⟨"a.js", 5000⟩] "a.js").1 _ hget
  have hnone := (audit_dedup_by_url
    [⟨"a.js", [⟨[⟨0, 100, 0⟩]⟩]⟩, ⟨"a.js", [⟨[⟨0, 100, 1⟩]⟩]⟩,
     ⟨"c.js", [⟨[⟨0, 10, 0⟩]⟩]⟩] [⟨"a.js", 5000⟩] "c.js").2.1 (by rw [hjoined]; decide)
  exact ⟨hget, hmem, hmin, hnone⟩

/-- **C8**: a deduplicated result is included in the returned results precisely when
its `wastedBytes` strictly exceeds the ignore threshold, and the threshold constant
is 2048 bytes; a result at exactly the threshold is excluded, one byte more is
included. -/
theorem audit_threshold_filter (jsUsage : List Script)
    (networkRecords : List ResourceRecord) (w : WasteResult)
    (hmem : w ∈ (resultsMap jsUsage networkRecords).map Prod.snd) :
    (w ∈ audit_ jsUsage networkRecords ↔
      IGNORE_THRESHOLD_IN_BYTES < w.wastedBytes) ∧
    IGNORE_THRESHOLD_IN_BYTES = 2048 := by
  refine ⟨?_, rfl⟩
  unfold audit_
  rw [List.mem_filter]
  constructor
  · intro h
    have h2 := h.2
    simpa using h2
  · intro h
    exact ⟨hmem, by simpa using h⟩

/-- Witness for C8: a fully unused script delivered with `transferSize = 2049`
(wasted bytes one above the threshold) is reported, while one with
`transferSize = 2048` (wasted bytes exactly at the threshold) is dropped. -/
theorem audit_threshold_filter_witness :
    (⟨"a.js", 2049, 2049, 100, 1⟩ : WasteResult) ∈
      (resultsMap [⟨"a.js", [⟨[⟨0, 10, 0⟩]⟩]⟩, ⟨"b.js", [⟨[⟨0, 10, 0⟩]⟩]⟩]
        [⟨"a.js", 2049⟩, ⟨"b.js", 2048⟩]).map Prod.snd ∧
    (⟨"b.js", 2048, 2048, 100, 1⟩ : WasteResult) ∈
      (resultsMap [⟨"a.js", [⟨[⟨0, 10, 0⟩]⟩]⟩, ⟨"b.js", [⟨[⟨0, 10, 0⟩]⟩]⟩]
        [⟨"a.js", 2049⟩, ⟨"b.js", 2048⟩]).map Prod.snd ∧
    (⟨"a.js", 2049, 2049, 100, 1⟩ : WasteResult) ∈
      audit_ [⟨"a.js", [⟨[⟨0, 10, 0⟩]⟩]⟩, ⟨"b.js", [⟨[⟨0, 10, 0⟩]⟩]⟩]
        [⟨"a.js", 2049⟩, ⟨"b.js", 2048⟩] ∧
    (⟨"b.js", 2048, 2048, 100, 1⟩ : WasteResult) ∉
      audit_ [⟨"a.js", [⟨[⟨0, 10, 0⟩]⟩]⟩, ⟨"b.js", [⟨[⟨0, 10, 0⟩]⟩]⟩]
        [⟨"a.js", 2049⟩, ⟨"b.js", 2048⟩] := by
  have hmap : resultsMap [⟨"a.js", [⟨[⟨0, 10, 0⟩]⟩]⟩, ⟨"b.js", [⟨[⟨0, 10, 0⟩]⟩]⟩]
      [⟨"a.js", 2049⟩, ⟨"b.js", 2048⟩] =
      [("a.js", ⟨"a.js", 2049, 2049, 100, 1⟩), ("b.js", ⟨"b.js", 2048, 2048, 100, 1⟩)] := by
    simp [resultsMap, auditStep, joinScript, mapGet?, mapSet, computeWaste, getDisplayName,
      decomposed, sortedRanges, flattenRanges, toCovRange, rangeLE, wastedRatio_eq_ite, jsRound,
      numUnusedFunctions, functionIsUsed, findUsedAndUnused, rangePair, _add, spanningOf,
      restOf, nextStartOf, latestEndOf, latestEndReduce, List.insertionSort,
      List.orderedInsert, List.find?]
    norm_num
  have hmemA : (⟨"a.js", 2049, 2049, 100, 1⟩ : WasteResult) ∈
      (resultsMap [⟨"a.js", [⟨[⟨0, 10, 0⟩]⟩]⟩, ⟨"b.js", [⟨[⟨0, 10, 0⟩]⟩]⟩]
        [⟨"a.js", 2049⟩, ⟨"b.js", 2048⟩]).map Prod.snd := by
    rw [hmap]
    decide
  have hmemB : (⟨"b.js", 2048, 2048, 100, 1⟩ : WasteResult) ∈
      (resultsMap [⟨"a.js", [⟨[⟨0, 10, 0⟩]⟩]⟩, ⟨"b.js", [⟨[⟨0, 10, 0⟩]⟩]⟩]
        [⟨"a.js", 2049⟩, ⟨"b.js", 2048⟩]).map Prod.snd := by
    rw [hmap]
    decide
  refine ⟨hmemA, hmemB, ?_, ?_⟩
  · exact ((audit_threshold_filter _ _ _ hmemA).1).mpr (by decide)
  · intro h
    have h2 := ((audit_threshold_filter _ _ _ hmemB).1).mp h
    exact absurd h2 (by decide)

/-- **C9** (counterexample): the claim states that `computeWaste` validates malformed
ranges and fails fast with an `InvalidRangeError`.  The source contains no
validation and no such error: on a script containing the malformed range
`[10, 5)` (endOffset < startOffset) together with a used range `[20, 26)`,
`computeWaste` returns normally with a negative byte count,
`wastedBytes = -312` — precisely the silent outcome the claim says is prevented. -/
theorem computeWaste_no_validation_counterexample :
    ¬ RawWF (⟨10, 5, 0⟩ : RawRange) ∧
    (computeWaste ⟨"m.js", [⟨[⟨10, 5, 0⟩]⟩, ⟨[⟨20, 26, 1⟩]⟩]⟩
      ⟨"m.js", 1000⟩).wastedBytes = -312 ∧
    (computeWaste ⟨"m.js", [⟨[⟨10, 5, 0⟩]⟩, ⟨[⟨20, 26, 1⟩]⟩]⟩
      ⟨"m.js", 1000⟩).wastedBytes < 0 := by
  have h : (computeWaste ⟨"m.js", [⟨[⟨10, 5, 0⟩]⟩, ⟨[⟨20, 26, 1⟩]⟩]⟩
      ⟨"m.js", 1000⟩).wastedBytes = -312 := by
    simp [computeWaste, decomposed, sortedRanges, flattenRanges, toCovRange, rangeLE,
      wastedRatio_eq_ite, jsRound, findUsedAndUnused, rangePair, _add, spanningOf, restOf,
      nextStartOf, latestEndOf, latestEndReduce, List.insertionSort, List.orderedInsert]
    norm_num
  refine ⟨by decide, h, ?_⟩
  rw [h]
  decide

/-- **C9** (amended): `computeWaste` performs no input validation: there is a script
with a malformed range (violating `endOffset > startOffset`) on which it returns
normally and silently produces a negative `wastedBytes`, rather than raising any
error. -/
theorem computeWaste_malformed_silent :
    ∃ (script : Script) (networkRecord : ResourceRecord),
      (∃ f ∈ script.functions, ∃ range ∈ f.ranges, ¬ RawWF range) ∧
      (computeWaste script networkRecord).wastedBytes < 0 := by
  refine ⟨⟨"m.js", [⟨[⟨10, 5, 0⟩]⟩, ⟨[⟨20, 26, 1⟩]⟩]⟩, ⟨"m.js", 1000⟩, ?_, ?_⟩
  · exact ⟨⟨[⟨10, 5, 0⟩]⟩, by simp, ⟨10, 5, 0⟩, by simp, by decide⟩
  · have h : (computeWaste ⟨"m.js", [⟨[⟨10, 5, 0⟩]⟩, ⟨[⟨20, 26, 1⟩]⟩]⟩
        ⟨"m.js", 1000⟩).wastedBytes = -312 := by
      simp [computeWaste, decomposed, sortedRanges, flattenRanges, toCovRange, rangeLE,
        wastedRatio_eq_ite, jsRound, findUsedAndUnused, rangePair, _add, spanningOf, restOf,
        nextStartOf, latestEndOf, latestEndReduce, List.insertionSort, List.orderedInsert]
      norm_num
    rw [h]
    decide
